import Mathlib

/-!
Verification development for the kvstash storage engine (vi88i/kvstash).

The repository is shallowly embedded in Lean:

* Byte strings are `List Nat` with each element `< 256`.
* Machine integers (`int64`) are `Int`; wherever Go converts to `uint64`
  for serialisation, the embedding takes the value modulo `2 ^ 64`
  explicitly.
* SHA-256 is implemented executably over byte lists (FIPS 180-4).
* File-system state (the database directory) is explicit data threaded
  through the operations; `os.File.Read`/`ReadAt`/`WriteAt` are modelled
  on byte lists with Go's regular-file semantics.

The source tree of the repository contains several historical versions of
some files; the embedding follows the newest version of each function
(the versions cited by the specification), and every place where a gap
between versions has to be bridged, or where a piece of the final program
is absent from the tree, carries a doc comment starting with
`Modelled from the spec:` naming what is missing.
-/

/-- A byte: the embedding keeps every element of a byte string below 256. -/
def isByte (n : Nat) : Bool := n < 256

/-- All elements of a byte string are bytes. -/
def bytesWf (l : List Nat) : Bool := l.all isByte

/-- Bytes of a string literal.  All strings this development manipulates
(segment names, JSON keys) are ASCII, for which code points and UTF-8 bytes
coincide. -/
def strBytes (s : String) : List Nat := s.data.map Char.toNat

/-- 2^32, the word modulus of SHA-256. -/
def w32 : Nat := 4294967296

/-- 2^64, the modulus Go applies when an `int64` is serialised as `uint64`. -/
def w64 : Nat := 18446744073709551616

/-- 2^63, the boundary between non-negative and negative `int64` values. -/
def w63 : Nat := 9223372036854775808

/-- Big-endian bytes of a natural number, `k` bytes wide (most significant first). -/
def beBytes : Nat → Nat → List Nat
  | 0, _ => []
  | k + 1, n => (n >>> (8 * k)) % 256 :: beBytes k n

/-- Recompose a big-endian byte string into a natural number. -/
def beVal (l : List Nat) : Nat := l.foldl (fun acc b => acc * 256 + b) 0

/-- `binary.Write(buf, BigEndian, x)` for an `int64` value: eight bytes of the
two's-complement (`uint64`) image of `x`. -/
def be64 (x : Int) : List Nat := beBytes 8 (x % (w64 : Int)).toNat

/-- Read back an `int64` from eight big-endian bytes (two's complement). -/
def readI64 (l : List Nat) : Int :=
  let u := beVal l
  if u < w63 then (u : Int) else (u : Int) - (w64 : Int)

/- ----------------------------------------------------------------- -/
/- SHA-256 (FIPS 180-4), executable over byte lists.                 -/
/- ----------------------------------------------------------------- -/

/-- Right rotation of a 32-bit word. -/
def rotr32 (n x : Nat) : Nat := ((x >>> n) ||| (x <<< (32 - n))) % w32

/-- SHA-256 initial hash value. -/
def shaH0 : List Nat :=
  [1779033703, 3144134277, 1013904242, 2773480762,
   1359893119, 2600822924, 528734635, 1541459225]

/-- SHA-256 round constants. -/
def shaK : List Nat :=
  [1116352408, 1899447441, 3049323471, 3921009573,
   961987163, 1508970993, 2453635748, 2870763221,
   3624381080, 310598401, 607225278, 1426881987,
   1925078388, 2162078206, 2614888103, 3248222580,
   3835390401, 4022224774, 264347078, 604807628,
   770255983, 1249150122, 1555081692, 1996064986,
   2554220882, 2821834349, 2952996808, 3210313671,
   3336571891, 3584528711, 113926993, 338241895,
   666307205, 773529912, 1294757372, 1396182291,
   1695183700, 1986661051, 2177026350, 2456956037,
   2730485921, 2820302411, 3259730800, 3345764771,
   3516065817, 3600352804, 4094571909, 275423344,
   430227734, 506948616, 659060556, 883997877,
   958139571, 1322822218, 1537002063, 1747873779,
   1955562222, 2024104815, 2227730452, 2361852424,
   2428436474, 2756734187, 3204031479, 3329325298]

/-- SHA-256 small sigma 0. -/
def sSig0 (x : Nat) : Nat := (rotr32 7 x) ^^^ (rotr32 18 x) ^^^ (x >>> 3)

/-- SHA-256 small sigma 1. -/
def sSig1 (x : Nat) : Nat := (rotr32 17 x) ^^^ (rotr32 19 x) ^^^ (x >>> 10)

/-- SHA-256 big Sigma 0. -/
def bSig0 (x : Nat) : Nat := (rotr32 2 x) ^^^ (rotr32 13 x) ^^^ (rotr32 22 x)

/-- SHA-256 big Sigma 1. -/
def bSig1 (x : Nat) : Nat := (rotr32 6 x) ^^^ (rotr32 11 x) ^^^ (rotr32 25 x)

/-- Split a byte list into big-endian 32-bit words (length must be a multiple of 4). -/
def toWords : List Nat → List Nat
  | b0 :: b1 :: b2 :: b3 :: rest => beVal [b0, b1, b2, b3] :: toWords rest
  | _ => []

/-- Extend 16 message words to the 64-entry message schedule. -/
def shaSchedule (ws : List Nat) (i : Nat) : List Nat :=
  match i with
  | 0 => ws
  | j + 1 =>
    let prev := shaSchedule ws j
    let t := prev.length
    let a := prev.getD (t - 2) 0
    let b := prev.getD (t - 7) 0
    let c := prev.getD (t - 15) 0
    let d := prev.getD (t - 16) 0
    prev ++ [(sSig1 a + b + sSig0 c + d) % w32]

/-- One round of the SHA-256 compression function.  The state is the list
`[a,b,c,d,e,f,g,h]`; `kw` is the sum input `K[i] + W[i]` (mod 2^32). -/
def shaRound (st : List Nat) (kw : Nat) : List Nat :=
  match st with
  | [a, b, c, d, e, f, g, h] =>
    let ch := (e &&& f) ^^^ ((w32 - 1 - e) &&& g)
    let t1 := (h + bSig1 e + ch + kw) % w32
    let maj := (a &&& b) ^^^ (a &&& c) ^^^ (b &&& c)
    let t2 := (bSig0 a + maj) % w32
    [(t1 + t2) % w32, a, b, c, (d + t1) % w32, e, f, g]
  | other => other

/-- Compress one 64-byte block into the running hash state. -/
def shaBlock (h : List Nat) (block : List Nat) : List Nat :=
  let ws := shaSchedule (toWords block) 48
  let kws := (List.zip shaK ws).map (fun p => (p.1 + p.2) % w32)
  let st := kws.foldl shaRound h
  (List.zip h st).map (fun p => (p.1 + p.2) % w32)

/-- SHA-256 padding: append `0x80`, zero fill, and the 64-bit bit length. -/
def shaPad (msg : List Nat) : List Nat :=
  let l := msg.length
  let zeros := (64 - (l + 9) % 64) % 64
  msg ++ [128] ++ List.replicate zeros 0 ++ beBytes 8 (8 * l)

/-- Split a padded message into 64-byte blocks (fuel-driven structural recursion;
the caller passes `l.length` as fuel, which always suffices). -/
def chunks64Aux : Nat → List Nat → List (List Nat)
  | 0, _ => []
  | _, [] => []
  | fuel + 1, l => l.take 64 :: chunks64Aux fuel (l.drop 64)

/-- Split a padded message into 64-byte blocks. -/
def chunks64 (l : List Nat) : List (List Nat) := chunks64Aux l.length l

/-- SHA-256 of a byte string, as 32 bytes. -/
def sha256 (msg : List Nat) : List Nat :=
  let hFinal := (chunks64 (shaPad msg)).foldl shaBlock shaH0
  hFinal.flatMap (beBytes 4)

/-- Contiguous slice of a byte list: `len` bytes starting at `pos`. -/
def sub (l : List Nat) (pos len : Nat) : List Nat := (l.drop pos).take len

/- ----------------------------------------------------------------- -/
/- Record codec: src/src/models/metadata.go (120-byte, flags form).  -/
/- ----------------------------------------------------------------- -/

/-- `constants.MetadataSize` (src/src/constants/metadata.go, current form). -/
def metadataSize : Nat := 120

/-- `constants.MaxKeySize`. -/
def maxKeySize : Nat := 256

/-- `constants.MaxValueSize`. -/
def maxValueSize : Nat := 1048576

/-- `models.KVStashMetadata`: offset, size and flags are Go `int64`;
the three 32-byte fields are byte lists (well-formed values have length 32). -/
structure KVStashMetadata where
  offset : Int
  size : Int
  flags : Int
  segmentFile : List Nat
  checksum : List Nat
  mChecksum : List Nat
deriving Repr, DecidableEq

/-- `models.fitFileName`: reject names longer than 32 bytes, zero-pad the rest
to exactly 32 bytes. -/
def fitFileName (name : List Nat) : Option (List Nat) :=
  if name.length > 32 then none
  else some (name ++ List.replicate (32 - name.length) 0)

/-- `(*KVStashMetadata).ComputeChecksum` (metadata.go lines 38-89): build
`buf1 = offset ‖ size ‖ flags ‖ fileName ‖ data` by successive
`binary.Write(..., BigEndian, _)` appends and hash it for the value checksum;
build `buf2 = offset ‖ size ‖ flags ‖ fileName ‖ valueChecksum` and hash it
for the metadata checksum.  Fails (like the Go code) when the filename
exceeds 32 bytes. -/
def computeChecksum (offset size flags : Int) (fileName : List Nat)
    (data : List Nat) : Option KVStashMetadata :=
  match fitFileName fileName with
  | none => none
  | some fileNameBytes =>
    let buf1 := [] ++ be64 offset ++ be64 size ++ be64 flags ++ fileNameBytes ++ data
    let valueChecksum := sha256 buf1
    let buf2 := [] ++ be64 offset ++ be64 size ++ be64 flags ++ fileNameBytes ++ valueChecksum
    let metadataChecksum := sha256 buf2
    some ⟨offset, size, flags, fileNameBytes, valueChecksum, metadataChecksum⟩

/-- `(*KVStashMetadata).Serialize` (metadata.go lines 98-110): 120 bytes,
offset at 0..8, size at 8..16, flags at 16..24, then the three 32-byte
fields.  Faithful for well-formed metadata (32-byte fields), which is what
the Go fixed-size arrays enforce. -/
def serializeMeta (m : KVStashMetadata) : List Nat :=
  be64 m.offset ++ be64 m.size ++ be64 m.flags ++
    m.segmentFile ++ m.checksum ++ m.mChecksum

/-- `(*KVStashMetadata).Deserialize` (metadata.go lines 115-129): error unless
the input is exactly `MetadataSize` bytes, otherwise slice the fields back. -/
def deserializeMeta (data : List Nat) : Option KVStashMetadata :=
  if data.length ≠ metadataSize then none
  else some ⟨readI64 (sub data 0 8), readI64 (sub data 8 8), readI64 (sub data 16 8),
             sub data 24 32, sub data 56 32, sub data 88 32⟩

/-- `(*KVStashMetadata).ValidateMChecksum` (metadata.go lines 133-157):
recompute SHA-256 over offset ‖ size ‖ flags ‖ segmentFile ‖ checksum and
compare with the stored metadata checksum. -/
def validateMChecksum (m : KVStashMetadata) : Bool :=
  sha256 ([] ++ be64 m.offset ++ be64 m.size ++ be64 m.flags ++
    m.segmentFile ++ m.checksum) == m.mChecksum

/-- The value-digest recomputation performed on the Get path as written in
src/unnamed/part_005 (`fetchValue`, line 70): it calls the four-argument
`ComputeChecksum(offset, size, fileName, buf)` of the 112-byte era, whose
digest input is offset ‖ size ‖ fileName ‖ data — without the flags word —
and it ignores the returned error, leaving the checksum zeroed when the
filename is over 32 bytes. -/
def getPathRecomputedDigest (offset size : Int) (fileName data : List Nat) : List Nat :=
  match fitFileName fileName with
  | none => List.replicate 32 0
  | some fileNameBytes =>
    sha256 ([] ++ be64 offset ++ be64 size ++ fileNameBytes ++ data)

/- ----------------------------------------------------------------- -/
/- JSON payload codec.                                               -/
/- ----------------------------------------------------------------- -/

/-- Lowercase hexadecimal digit byte. -/
def hexDigit (n : Nat) : Nat := if n < 10 then 48 + n else 87 + n

/-- Escape of one byte in the output of Go `encoding/json` string encoding
(default HTML escaping on): quote and backslash get a backslash form, as do
newline, carriage return and tab; remaining control bytes and the HTML
characters 60 `<`, 62 `>`, 38 `&` become `\u00XX`; everything else is
emitted verbatim. -/
def escByte (b : Nat) : List Nat :=
  if b == 34 then [92, 34]
  else if b == 92 then [92, 92]
  else if b == 10 then [92, 110]
  else if b == 13 then [92, 114]
  else if b == 9 then [92, 116]
  else if b < 32 then [92, 117, 48, 48, hexDigit (b / 16), hexDigit (b % 16)]
  else if b == 60 || b == 62 || b == 38 then
    [92, 117, 48, 48, hexDigit (b / 16), hexDigit (b % 16)]
  else [b]

/-- Go JSON string escaping over a byte string. -/
def jsonEscape (l : List Nat) : List Nat := l.flatMap escByte

/-- The bytes `\x7b"key":"` opening a marshalled `KVStashRequest`. -/
def jsonHead : List Nat := [123, 34] ++ strBytes "key" ++ [34, 58, 34]

/-- The bytes `","value":"` between the two fields. -/
def jsonMid : List Nat := [34, 44, 34] ++ strBytes "value" ++ [34, 58, 34]

/-- The bytes `"\x7d` closing a marshalled `KVStashRequest`. -/
def jsonEnd : List Nat := [34, 125]

/-- `json.Marshal` of `models.KVStashRequest\x7bKey, Value\x7d`: struct fields in
declaration order, no whitespace, Go string escaping. -/
def jsonMarshal (k v : List Nat) : List Nat :=
  jsonHead ++ jsonEscape k ++ jsonMid ++ jsonEscape v ++ jsonEnd

/-- Value of a hexadecimal digit byte, if it is one. -/
def unhexDigit (b : Nat) : Option Nat :=
  if 48 ≤ b && b ≤ 57 then some (b - 48)
  else if 97 ≤ b && b ≤ 102 then some (b - 87)
  else if 65 ≤ b && b ≤ 70 then some (b - 55)
  else none

/-- Parse a JSON string body up to and including its closing quote, undoing
the escapes `jsonEscape` can produce.  Returns the decoded bytes and the
rest of the input.  Fuel-driven; callers pass at least the input length. -/
def parseQuoted : Nat → List Nat → Option (List Nat × List Nat)
  | 0, _ => none
  | _, [] => none
  | fuel + 1, b :: rest =>
    if b == 34 then some ([], rest)
    else if b == 92 then
      match rest with
      | [] => none
      | c :: rest2 =>
        if c == 34 then (parseQuoted fuel rest2).map (fun p => (34 :: p.1, p.2))
        else if c == 92 then (parseQuoted fuel rest2).map (fun p => (92 :: p.1, p.2))
        else if c == 110 then (parseQuoted fuel rest2).map (fun p => (10 :: p.1, p.2))
        else if c == 114 then (parseQuoted fuel rest2).map (fun p => (13 :: p.1, p.2))
        else if c == 116 then (parseQuoted fuel rest2).map (fun p => (9 :: p.1, p.2))
        else if c == 117 then
          match rest2 with
          | d1 :: d2 :: d3 :: d4 :: rest3 =>
            match unhexDigit d1, unhexDigit d2, unhexDigit d3, unhexDigit d4 with
            | some h1, some h2, some h3, some h4 =>
              (parseQuoted fuel rest3).map
                (fun p => ((((h1 * 16 + h2) * 16 + h3) * 16 + h4) :: p.1, p.2))
            | _, _, _, _ => none
          | _ => none
        else none
    else (parseQuoted fuel rest).map (fun p => (b :: p.1, p.2))

/-- Match an exact byte pattern at the head of the input. -/
def expectBytes (pat l : List Nat) : Option (List Nat) :=
  if pat = l.take pat.length then some (l.drop pat.length) else none

/-- `json.Unmarshal` into `models.KVStashRequest`, restricted to the canonical
shape `jsonMarshal` produces (which is the only shape the engine ever writes):
`\x7b"key":"…","value":"…"\x7d` with Go escaping inside the strings.  Inputs of any
other shape are rejected; Go's parser is more lenient on some of those, but
none of them are produced by the engine, and every concrete input used in the
theorems below is one on which Go's parser agrees. -/
def jsonDecode (l : List Nat) : Option (List Nat × List Nat) :=
  match expectBytes jsonHead l with
  | none => none
  | some r1 =>
    match parseQuoted r1.length r1 with
    | none => none
    | some (k, r2) =>
      match expectBytes (jsonMid.drop 1) r2 with
      | none => none
      | some r3 =>
        match parseQuoted r3.length r3 with
        | none => none
        | some (v, r4) =>
          if r4 = [125] then some (k, v) else none

/-- Bytes that `jsonEscape` passes through verbatim: printable ASCII other
than quote, backslash and the HTML-escaped characters. -/
def jsonSafeByte (b : Nat) : Bool :=
  32 ≤ b && b < 127 && b != 34 && b != 92 && b != 60 && b != 62 && b != 38

/-- A byte string that JSON-encodes to itself. -/
def jsonSafe (l : List Nat) : Bool := l.all jsonSafeByte

/- ----------------------------------------------------------------- -/
/- Store engine: newest versions in src (store.go final chunk,       -/
/- writer.go second chunk, part_005 first chunk).                    -/
/- ----------------------------------------------------------------- -/

/-- Error kinds surfaced by the engine; each constructor corresponds to one
`errors.New`/`fmt.Errorf` site in the source. -/
inductive KVErr where
  | emptyKey
  | keyTooLarge
  | valueTooLarge
  | keyNotFound
  | checksumMismatch
  | invalidSize
  | invalidOffset
  | openFailed
  | outOfBounds
  | deserializeFailed
  | truncatedMetadata
  | metadataDeserializeFailed
  | metadataChecksumFailed
  | shortValueRead
  | writeFailed
  | nameTooLong
  | readFailed
deriving Repr, DecidableEq

/-- Decidable equality for `Except` results, used to state concrete runs. -/
instance {e a : Type} [DecidableEq e] [DecidableEq a] : DecidableEq (Except e a) := fun x y =>
  match x, y with
  | .ok u, .ok v =>
    if h : u = v then isTrue (by rw [h]) else isFalse (by intro he; cases he; exact h rfl)
  | .error u, .error v =>
    if h : u = v then isTrue (by rw [h]) else isFalse (by intro he; cases he; exact h rfl)
  | .ok _, .error _ => isFalse (by intro he; cases he)
  | .error _, .ok _ => isFalse (by intro he; cases he)

/-- `models.KVStashIndexEntry` (src/src/models/index.go, current form). -/
structure KVStashIndexEntry where
  segmentFile : List Nat
  offset : Int
  size : Int
  deleted : Bool
  checksum : List Nat
deriving Repr, DecidableEq

/-- `models.KVStashIndex`: the Go map is modelled as an association list with
unique keys (update in place, lookup by key; iteration order is the
insertion order, which no claim depends on). -/
abbrev KVIndex := List (List Nat × KVStashIndexEntry)

/-- Map lookup. -/
def indexLookup (idx : KVIndex) (k : List Nat) : Option KVStashIndexEntry :=
  match idx.find? (fun p => p.1 == k) with
  | some p => some p.2
  | none => none

/-- Map insert-or-replace (`s.index[key] = entry`). -/
def indexSet : KVIndex → List Nat → KVStashIndexEntry → KVIndex
  | [], k, e => [(k, e)]
  | (k', e') :: t, k, e =>
    if k' == k then (k, e) :: t else (k', e') :: indexSet t k e

/-- Map delete (`delete(s.index, key)`). -/
def indexErase : KVIndex → List Nat → KVIndex
  | [], _ => []
  | (k', e') :: t, k => if k' == k then t else (k', e') :: indexErase t k

/-- `constants.ActiveLogFileName`. -/
def activeLogFileName : List Nat := strBytes "active.log"

/-- Fuel-driven decimal rendering helper (fuel at least the number itself). -/
def natDigitsAux : Nat → Nat → List Nat
  | 0, _ => []
  | fuel + 1, n => if n < 10 then [48 + n] else natDigitsAux fuel (n / 10) ++ [48 + n % 10]

/-- Decimal digit bytes of a natural number, most significant first. -/
def natDigits (n : Nat) : List Nat := natDigitsAux (n + 1) n

/-- Recompose decimal digit bytes into the number they render. -/
def digitsVal (l : List Nat) : Nat := l.foldl (fun acc b => acc * 10 + (b - 48)) 0

/-- The name `seg<N>.log` of an archived segment file. -/
def segFileName (n : Nat) : List Nat := strBytes "seg" ++ natDigits n ++ strBytes ".log"

/-- The database directory and in-memory store state of the current engine:
archived segment files keyed by their parsed number, the active log file,
the index, and the writer's append offset. -/
structure StoreA where
  archived : List (Nat × List Nat)
  active : List Nat
  index : KVIndex
  writerOffset : Int
deriving Repr, DecidableEq

/-- Resolve a file name inside the database directory. -/
def lookupFileA (st : StoreA) (name : List Nat) : Option (List Nat) :=
  if name == activeLogFileName then some st.active
  else
    match st.archived.find? (fun p => segFileName p.1 == name) with
    | some p => some p.2
    | none => none

/-- The value-digest recomputation the Get path performs under the current
codec.  Modelled from the spec: the `fetchValue` in src (unnamed/part_005)
still makes the four-argument 112-byte-era call and does not compile against
the current five-argument `ComputeChecksum`; spec 4.A (`verify_value`) says
the Get path recomputes the value digest over the same field set, and live
records carry flag word 0, so the missing argument is supplied as 0 here.
`claim2` examines the literal flagless recomputation separately via
`getPathRecomputedDigest`. -/
def valueDigest (offset size flags : Int) (name data : List Nat) : List Nat :=
  match fitFileName name with
  | none => List.replicate 32 0
  | some nameBytes => sha256 (be64 offset ++ be64 size ++ be64 flags ++ nameBytes ++ data)

/-- `store.fetchValue` (src/unnamed/part_005 lines 21-77): validate size and
offset, resolve and bounds-check the file, read exactly `size` bytes at
`offset`, JSON-decode them, then compare the recomputed value digest with the
stored checksum (`ErrChecksumMismatch` on mismatch).  Note the order: the
JSON decode happens before the checksum comparison. -/
def fetchValueA (st : StoreA) (fileName : List Nat) (offset size : Int)
    (checksum : List Nat) : Except KVErr (List Nat) :=
  if size ≤ 0 then .error .invalidSize
  else if offset < 0 then .error .invalidOffset
  else
    match lookupFileA st fileName with
    | none => .error .openFailed
    | some f =>
      if offset + size > (f.length : Int) then .error .outOfBounds
      else
        let buf := sub f offset.toNat size.toNat
        match jsonDecode buf with
        | none => .error .deserializeFailed
        | some kv =>
          if valueDigest offset size 0 fileName buf == checksum then .ok kv.2
          else .error .checksumMismatch

/-- `(*Store).Get` (store.go lines 609-632): index lookup, `ErrKeyNotFound`
when absent, then `fetchValue`; on `ErrChecksumMismatch` the entry is purged
from the index.  The entry's `Deleted` flag is never consulted. -/
def getA (st : StoreA) (k : List Nat) : Except KVErr (List Nat) × StoreA :=
  match indexLookup st.index k with
  | none => (.error .keyNotFound, st)
  | some entry =>
    match fetchValueA st entry.segmentFile entry.offset entry.size entry.checksum with
    | .error e =>
      if e = KVErr.checksumMismatch then
        (.error e, { st with index := indexErase st.index k })
      else (.error e, st)
    | .ok v => (.ok v, st)

/-- `models.ComputeMetadataFlag`: OR together `1 << flag` for each flag. -/
def computeMetadataFlag (flags : List Int) : Int :=
  flags.foldl (fun value f => ((value.toNat ||| (1 <<< f.toNat) : Nat) : Int)) 0

/-- Outcome of the two `WriteAt` calls inside one `LogWriter.Write`:
how many bytes each reports written and whether it returns an error.
A fully successful environment has `headerN = MetadataSize`,
`valueN = len(data)` and both error flags false. -/
structure WriteEnv where
  headerN : Nat
  headerErr : Bool
  valueN : Nat
  valueErr : Bool
deriving Repr, DecidableEq

/-- `WriteAt` on a regular file: overwrite in place at `pos`, extending the
file (zero-filling any gap) as needed. -/
def overwriteAt (file : List Nat) (pos : Nat) (bytes : List Nat) : List Nat :=
  (file.take pos ++ List.replicate (pos - file.length) 0) ++ bytes ++
    file.drop (pos + bytes.length)

/-- `(*LogWriter).Write` (writer.go lines 184-217): compute the metadata and
checksums for the record at the current offset, positionally write the
120-byte header, advance the offset by `MetadataSize`, positionally write
the payload, and on payload error or short payload write roll the offset
back by `MetadataSize`; only a fully successful write advances the offset
past the payload.  Returns the result, the new offset and the new file
contents. -/
def logWriteA (env : WriteEnv) (name : List Nat) (offset0 : Int) (file : List Nat)
    (data : List Nat) (flags : List Int) :
    Except KVErr KVStashMetadata × Int × List Nat :=
  let metadataFlag := computeMetadataFlag flags
  let metaDataOffset := offset0
  let valueOffset := metaDataOffset + (metadataSize : Int)
  let valueSize := (data.length : Int)
  match computeChecksum valueOffset valueSize metadataFlag name data with
  | none => (.error .nameTooLong, offset0, file)
  | some metadata =>
    let file1 := overwriteAt file metaDataOffset.toNat ((serializeMeta metadata).take env.headerN)
    if env.headerErr then (.error .writeFailed, offset0, file1)
    else if env.headerN ≠ metadataSize then (.error .writeFailed, offset0, file1)
    else
      let offset1 := offset0 + (metadataSize : Int)
      let file2 := overwriteAt file1 valueOffset.toNat (data.take env.valueN)
      if env.valueErr || (env.valueN : Int) ≠ metadata.size then
        (.error .writeFailed, offset1 - (metadataSize : Int), file2)
      else (.ok metadata, offset1 + (env.valueN : Int), file2)

/-- The environment of a write in which both `WriteAt` calls fully succeed. -/
def okEnvFor (dataLen : Nat) : WriteEnv := ⟨metadataSize, false, dataLen, false⟩

/-- `(*Store).Set` (store.go lines 570-602): reject the empty key, keys over
`MaxKeySize` and values over `MaxValueSize`; otherwise marshal the request,
append it through the writer, and point the index entry for the key at the
new record.  The writer is the current flags-aware `LogWriter` (writer.go
second chunk) with no flags set for a Put; the store keeps writing to
`ActiveLogFileName` as in the cited `Set`. -/
def setA (st : StoreA) (k v : List Nat) : Except KVErr Unit × StoreA :=
  if k.length = 0 then (.error .emptyKey, st)
  else if k.length > maxKeySize then (.error .keyTooLarge, st)
  else if v.length > maxValueSize then (.error .valueTooLarge, st)
  else
    let data := jsonMarshal k v
    match logWriteA (okEnvFor data.length) activeLogFileName st.writerOffset st.active data [] with
    | (.error e, o1, f1) => (.error e, { st with writerOffset := o1, active := f1 })
    | (.ok metadata, o1, f1) =>
      (.ok (),
        { st with
            writerOffset := o1
            active := f1
            index := indexSet st.index k
              ⟨activeLogFileName, metadata.offset, metadata.size, false, metadata.checksum⟩ })

/-- `(*Store).Delete`.  Modelled from the spec: no Delete exists in src (only
the `Deleted` entry field and the flags word are declared there); spec 4.F.4
says it validates the key like Put, returns `KeyNotFound` when the key is
absent or already deleted, appends a tombstone record (the key with an empty
value, flag bit 0 set) and marks the index entry deleted, pointing it at the
tombstone. -/
def deleteA (st : StoreA) (k : List Nat) : Except KVErr Unit × StoreA :=
  if k.length = 0 then (.error .emptyKey, st)
  else if k.length > maxKeySize then (.error .keyTooLarge, st)
  else
    match indexLookup st.index k with
    | none => (.error .keyNotFound, st)
    | some entry =>
      if entry.deleted then (.error .keyNotFound, st)
      else
        let data := jsonMarshal k []
        match logWriteA (okEnvFor data.length) activeLogFileName st.writerOffset st.active data [0] with
        | (.error e, o1, f1) => (.error e, { st with writerOffset := o1, active := f1 })
        | (.ok metadata, o1, f1) =>
          (.ok (),
            { st with
                writerOffset := o1
                active := f1
                index := indexSet st.index k
                  ⟨activeLogFileName, metadata.offset, metadata.size, true, metadata.checksum⟩ })

/-- One `file.Read`-driven scan step state machine for `readSegment`
(store.go lines 716-783), fuel-driven.  Each iteration reads a 120-byte
header (clean stop at EOF, `truncated metadata` on a short header read),
deserialises and digest-validates it, reads exactly `Size` payload bytes
(`incomplete value read` when short), JSON-decodes the payload, and installs
an index entry for the decoded key pointing at this record.  As in the
source, the entry's `Deleted` flag is never set and the header's `Flags`
word is never consulted. -/
def readSegmentLoop : Nat → List Nat → Nat → List Nat → KVIndex → KVIndex × Option KVErr
  | 0, _, _, _, idx => (idx, some .readFailed)
  | fuel + 1, file, pos, segment, idx =>
    if pos ≥ file.length then (idx, none)
    else
      let chunk := sub file pos metadataSize
      if chunk.length ≠ metadataSize then (idx, some .truncatedMetadata)
      else
        match deserializeMeta chunk with
        | none => (idx, some .metadataDeserializeFailed)
        | some metadata =>
          if ¬ validateMChecksum metadata then (idx, some .metadataChecksumFailed)
          else
            let dataBytes := sub file (pos + metadataSize) metadata.size.toNat
            if ((dataBytes.length : Int) ≠ metadata.size) then (idx, some .shortValueRead)
            else
              match jsonDecode dataBytes with
              | none => (idx, some .deserializeFailed)
              | some kv =>
                readSegmentLoop fuel file (pos + metadataSize + metadata.size.toNat) segment
                  (indexSet idx kv.1
                    ⟨segment, metadata.offset, metadata.size, false, metadata.checksum⟩)

/-- `(*Store).readSegment` over a whole segment file.  The fuel
`file.length + 1` always suffices because every continuing iteration
consumes at least the 120 header bytes. -/
def readSegmentA (file : List Nat) (segment : List Nat) (idx : KVIndex) :
    KVIndex × Option KVErr :=
  readSegmentLoop (file.length + 1) file 0 segment idx

/-- Insert one segment into a list sorted ascending by segment number. -/
def insertSeg (x : Nat × List Nat) : List (Nat × List Nat) → List (Nat × List Nat)
  | [] => [x]
  | y :: t => if x.1 ≤ y.1 then x :: y :: t else y :: insertSeg x t

/-- Sort segments ascending by parsed segment number, as
`getSegmentFiles` does with `sort.Slice`. -/
def sortSegs (l : List (Nat × List Nat)) : List (Nat × List Nat) :=
  l.foldr insertSeg []

/-- `(*Store).getSegmentFiles` (store.go lines 676-711): the `seg<N>.log`
files sorted ascending by their parsed number, followed by the active log
file.  (In the directory model the archived files are already keyed by
their parsed number, so the regexp filter and `ParseUint` always succeed.) -/
def getSegmentFilesA (st : StoreA) : List (List Nat × List Nat) :=
  (sortSegs st.archived).map (fun p => (segFileName p.1, p.2)) ++
    [(activeLogFileName, st.active)]

/-- The loop body of `(*Store).buildIndex` (store.go lines 637-663): scan the
segments in order; an error in a non-active segment clears the whole index
and fails startup, an error in the active log is logged and scanning simply
moves on (the active log is last, so this stops the scan) with all entries
read so far retained. -/
def buildIndexLoop : List (List Nat × List Nat) → KVIndex → KVIndex × Option KVErr
  | [], idx => (idx, none)
  | (name, f) :: rest, idx =>
    match readSegmentA f name idx with
    | (idx1, none) => buildIndexLoop rest idx1
    | (idx1, some e) =>
      if name ≠ activeLogFileName then (([] : KVIndex), some e)
      else buildIndexLoop rest idx1

/-- `(*Store).buildIndex` for a directory state. -/
def buildIndexA (st : StoreA) : KVIndex × Option KVErr :=
  buildIndexLoop (getSegmentFilesA st) []

/-- `store.NewStore` after a restart on an existing directory: rebuild the
index (failing startup if `buildIndex` fails) and open the writer at the
end of the active log (`newLogWriter` stats the file for the offset). -/
def restartA (archived : List (Nat × List Nat)) (active : List Nat) :
    Except KVErr StoreA :=
  match buildIndexA ⟨archived, active, [], 0⟩ with
  | (_, some e) => .error e
  | (idx, none) => .ok ⟨archived, active, idx, (active.length : Int)⟩

/-- The empty freshly-created database. -/
def emptyStoreA : StoreA := ⟨[], [], [], 0⟩

/-- All listed segments scan without error, threading the index through:
the success path of the `buildIndex` loop. -/
def scanAllOk : List (List Nat × List Nat) → KVIndex → Option KVIndex
  | [], idx => some idx
  | (name, f) :: rest, idx =>
    match readSegmentA f name idx with
    | (idx1, none) => scanAllOk rest idx1
    | (_, some _) => none

/-- A client operation: Put or Delete. -/
inductive KVOp where
  | put (k v : List Nat)
  | del (k : List Nat)
deriving Repr, DecidableEq

/-- The memory-only reference semantics of the spec: a map from key to its
current value, where a Delete removes the key. -/
def memRun : List KVOp → List (List Nat × List Nat) → List (List Nat × List Nat)
  | [], m => m
  | .put k v :: rest, m => memRun rest ((m.filter (fun p => p.1 ≠ k)) ++ [(k, v)])
  | .del k :: rest, m => memRun rest (m.filter (fun p => p.1 ≠ k))

/-- Lookup in the memory-only reference map. -/
def memGet (m : List (List Nat × List Nat)) (k : List Nat) : Option (List Nat) :=
  match m.find? (fun p => p.1 == k) with
  | some p => some p.2
  | none => none

/-- Run a sequence of operations through the engine (ignoring per-operation
results, as the scenario scripts do). -/
def runOpsA (st : StoreA) : List KVOp → StoreA
  | [] => st
  | .put k v :: rest => runOpsA (setA st k v).2 rest
  | .del k :: rest => runOpsA (deleteA st k).2 rest

/-- The store after Put("k","v") on a fresh database. -/
def demoPut : StoreA := (setA emptyStoreA (strBytes "k") (strBytes "v")).2

/-- The store after Put("k","v") then Delete("k"). -/
def demoPutDelete : StoreA := (deleteA demoPut (strBytes "k")).2

/-- `demoPut` with one payload byte flipped so that the payload no longer
parses as JSON: byte 141 of the active log is the closing quote of the
value string (payload byte 21 of the record at offset 120). -/
def demoCorruptQuote : StoreA := { demoPut with active := demoPut.active.set 141 88 }

/-- `demoPut` with one payload byte flipped inside the value string: byte 140
of the active log turns "v" into "w", leaving the payload valid JSON. -/
def demoCorruptValue : StoreA := { demoPut with active := demoPut.active.set 140 119 }

/- ----------------------------------------------------------------- -/
/- The rotating store of the spec (4.F.2 rotation, 4.F.3/4 deleted   -/
/- handling, 4.G compaction): the parts of the final engine that are -/
/- absent from src, modelled from the spec on top of the writer and  -/
/- codec above.                                                      -/
/- ----------------------------------------------------------------- -/

/-- `constants.MaxKeysPerSegment` (src/src/constants/segment.go, current
form, lines 16-28). -/
def maxKeysPerSegment : Nat := 512

/-- Modelled from the spec: the rotating store of 4.F.  `segs` are the
`seg<N>.log` files keyed by number, kept ascending; the highest-numbered
(last) segment is the active one.  `counter` is the active segment's write
counter of 4.F.2. -/
structure StoreB where
  segs : List (Nat × List Nat)
  counter : Nat
  index : KVIndex
deriving Repr, DecidableEq

/-- The largest segment number present (`current maximum` of 4.F.2). -/
def maxSegNum (segs : List (Nat × List Nat)) : Nat :=
  (segs.map Prod.fst).foldr max 0

/-- Resolve a file name inside the rotating store's directory. -/
def lookupFileB (S : StoreB) (name : List Nat) : Option (List Nat) :=
  match S.segs.find? (fun p => segFileName p.1 == name) with
  | some p => some p.2
  | none => none

/-- `store.fetchValue` (src/unnamed/part_005 lines 21-77) against the
rotating store's directory; digest recomputation as in `fetchValueA`. -/
def fetchValueB (S : StoreB) (fileName : List Nat) (offset size : Int)
    (checksum : List Nat) : Except KVErr (List Nat) :=
  if size ≤ 0 then .error .invalidSize
  else if offset < 0 then .error .invalidOffset
  else
    match lookupFileB S fileName with
    | none => .error .openFailed
    | some f =>
      if offset + size > (f.length : Int) then .error .outOfBounds
      else
        let buf := sub f offset.toNat size.toNat
        match jsonDecode buf with
        | none => .error .deserializeFailed
        | some kv =>
          if valueDigest offset size 0 fileName buf == checksum then .ok kv.2
          else .error .checksumMismatch

/-- Modelled from the spec (4.F.3): Get with the `deleted = true` check the
src `Get` lacks — an entry flagged deleted returns `KeyNotFound` before any
read; otherwise as the src `Get` (positional read, digest check,
corruption-purge). -/
def getB (S : StoreB) (k : List Nat) : Except KVErr (List Nat) × StoreB :=
  match indexLookup S.index k with
  | none => (.error .keyNotFound, S)
  | some entry =>
    if entry.deleted then (.error .keyNotFound, S)
    else
      match fetchValueB S entry.segmentFile entry.offset entry.size entry.checksum with
      | .error e =>
        if e = KVErr.checksumMismatch then
          (.error e, { S with index := indexErase S.index k })
        else (.error e, S)
      | .ok v => (.ok v, S)

/-- Modelled from the spec (4.F.2): when the active segment's write counter
has reached MaxKeysPerSegment, close the active writer, allocate segment
number `current maximum + 1`, open it as the new (empty) active segment and
reset the counter. -/
def rotateIfNeeded (S : StoreB) : StoreB :=
  if S.counter = maxKeysPerSegment then
    { S with segs := S.segs ++ [(maxSegNum S.segs + 1, [])], counter := 0 }
  else S

/-- Replace the last (active) segment. -/
def replaceLast (segs : List (Nat × List Nat)) (x : Nat × List Nat) :
    List (Nat × List Nat) :=
  match segs with
  | [] => [x]
  | [_] => [x]
  | y :: t => y :: replaceLast t x

/-- Modelled from the spec (4.F.2): Put against the rotating store — the
same validation and write path as the src `Set`, preceded by the rotation
check and writing to the current active segment under its own name, with
the counter incremented. -/
def putB (S : StoreB) (k v : List Nat) : Except KVErr Unit × StoreB :=
  if k.length = 0 then (.error .emptyKey, S)
  else if k.length > maxKeySize then (.error .keyTooLarge, S)
  else if v.length > maxValueSize then (.error .valueTooLarge, S)
  else
    let S1 := rotateIfNeeded S
    match S1.segs.getLast? with
    | none => (.error .openFailed, S)
    | some (num, f) =>
      let name := segFileName num
      let data := jsonMarshal k v
      match logWriteA (okEnvFor data.length) name (f.length : Int) f data [] with
      | (.error e, _, _) => (.error e, S)
      | (.ok metadata, _, f1) =>
        (.ok (),
          { segs := replaceLast S1.segs (num, f1)
            counter := S1.counter + 1
            index := indexSet S1.index k
              ⟨name, metadata.offset, metadata.size, false, metadata.checksum⟩ })

/-- Modelled from the spec (4.F.4): Delete — `KeyNotFound` without writing
when the key is absent or already deleted, otherwise append a tombstone
(key with empty value, flag bit 0) to the active segment and flag the
index entry deleted, pointing at the tombstone. -/
def deleteB (S : StoreB) (k : List Nat) : Except KVErr Unit × StoreB :=
  if k.length = 0 then (.error .emptyKey, S)
  else if k.length > maxKeySize then (.error .keyTooLarge, S)
  else
    match indexLookup S.index k with
    | none => (.error .keyNotFound, S)
    | some entry =>
      if entry.deleted then (.error .keyNotFound, S)
      else
        let S1 := rotateIfNeeded S
        match S1.segs.getLast? with
        | none => (.error .openFailed, S)
        | some (num, f) =>
          let name := segFileName num
          let data := jsonMarshal k []
          match logWriteA (okEnvFor data.length) name (f.length : Int) f data [0] with
          | (.error e, _, _) => (.error e, S)
          | (.ok metadata, _, f1) =>
            (.ok (),
              { segs := replaceLast S1.segs (num, f1)
                counter := S1.counter + 1
                index := indexSet S1.index k
                  ⟨name, metadata.offset, metadata.size, true, metadata.checksum⟩ })

/-- The fresh (empty) sub-store compaction creates at TmpPath: one empty
active segment `seg0.log`, zero counter, empty index. -/
def freshB : StoreB := ⟨[(0, [])], 0, []⟩

/-- One step of the compaction copy phase (spec 4.G step 3): skip deleted
entries; read the live value through the Get path and Put it into the
sub-store; any failure aborts the cycle. -/
def compactStep (S : StoreB) (acc : Option StoreB) (p : List Nat × KVStashIndexEntry) :
    Option StoreB :=
  match acc with
  | none => none
  | some subS =>
    if p.2.deleted then some subS
    else
      match (getB S p.1).1 with
      | .error _ => none
      | .ok v =>
        match putB subS p.1 v with
        | (.ok _, subS1) => some subS1
        | (.error _, _) => none

/-- Modelled from the spec (4.G): one compaction cycle under the store's
exclusive lock — copy every live entry into a fresh sub-store and swap it
in; on any copy failure the cycle aborts and the main store is untouched.
(The backup staging of steps 1 and 4f, `copyDB`, protects against crashes,
which are outside this state model; a completed cycle removes it again.) -/
def compactB (S : StoreB) : StoreB :=
  match S.index.foldl (compactStep S) (some freshB) with
  | none => S
  | some subS => subS

/-- Total bytes occupied by the store's segment files. -/
def totalBytesB (S : StoreB) : Nat := (S.segs.map (fun p => p.2.length)).sum

/-- Bytes attributable to live records through the index: header plus
payload for each non-deleted entry. -/
def liveSumB (idx : KVIndex) : Nat :=
  ((idx.filter (fun p => !p.2.deleted)).map
    (fun p => metadataSize + p.2.size.toNat)).sum

/-- Strictly ascending chain of segment numbers. -/
def ascChain : List Nat → Bool
  | [] => true
  | [_] => true
  | a :: b :: t => decide (a < b) && ascChain (b :: t)

/-- The payload a (live) index entry points at, when its file and bounds
resolve. -/
def entryPayload (S : StoreB) (e : KVStashIndexEntry) : Option (List Nat) :=
  match lookupFileB S e.segmentFile with
  | none => none
  | some f =>
    if 0 < e.size ∧ 0 ≤ e.offset ∧ e.offset + e.size ≤ (f.length : Int) then
      some (sub f e.offset.toNat e.size.toNat)
    else none

/-- A live index entry is coherent: its payload resolves, decodes as the
canonical JSON of its own key and some value within the configured bounds
(over JSON-safe bytes), its size is the payload length, and its stored
digest is the digest the read path recomputes. -/
def entryOkB (S : StoreB) (k : List Nat) (e : KVStashIndexEntry) : Bool :=
  match entryPayload S e with
  | none => false
  | some payload =>
    match jsonDecode payload with
    | none => false
    | some kv =>
      kv.1 == k && payload == jsonMarshal kv.1 kv.2 &&
      jsonSafe k && jsonSafe kv.2 &&
      decide (0 < k.length) && decide (k.length ≤ maxKeySize) &&
      decide (kv.2.length ≤ maxValueSize) &&
      decide (e.size = (payload.length : Int)) &&
      e.checksum == valueDigest e.offset e.size 0 e.segmentFile payload

/-- Well-formedness of a rotating store: at least one segment, strictly
ascending segment numbers, counter within the rotation threshold, unique
index keys, live bytes bounded by the files' bytes, and every live entry
coherent. -/
def wfB (S : StoreB) : Bool :=
  !S.segs.isEmpty &&
  ascChain (S.segs.map Prod.fst) &&
  decide (S.counter ≤ maxKeysPerSegment) &&
  decide ((S.index.map Prod.fst).Nodup) &&
  decide (liveSumB S.index ≤ totalBytesB S) &&
  S.index.all (fun p => p.2.deleted || entryOkB S p.1 p.2)

/-- The logical contents of the rotating store: the value of a key with a
live coherent entry, `none` otherwise. -/
def absB (S : StoreB) (k : List Nat) : Option (List Nat) :=
  match indexLookup S.index k with
  | none => none
  | some e =>
    if e.deleted then none
    else
      match entryPayload S e with
      | none => none
      | some payload => (jsonDecode payload).map (fun kv => kv.2)

/-- Number of live (non-deleted) entries in an index. -/
def liveCountB (idx : KVIndex) : Nat := (idx.filter (fun p => !p.2.deleted)).length


/-- A well-formed store whose active-segment write counter stands exactly at
the rotation threshold: one empty segment `seg0.log`, counter
`MaxKeysPerSegment`, empty index. -/
def rotDemo : StoreB := ⟨[(0, [])], maxKeysPerSegment, []⟩

/-- A store built by Put("a","x"); Put("b","y"); Delete("b"): one live and
one deleted key, so compaction has something to drop. -/
def compDemo : StoreB :=
  (deleteB (putB (putB freshB (strBytes "a") (strBytes "x")).2
    (strBytes "b") (strBytes "y")).2 (strBytes "b")).2

/- ================================================================= -/
/- Theorems.                                                         -/
/- ================================================================= -/

/-- Sanity check against the FIPS 180-4 test vector for "abc". -/
theorem sha256_abc :
    sha256 (strBytes "abc") =
      [186, 120, 22, 191, 143, 1, 207, 234, 65, 65, 64, 222, 93, 174, 34, 35,
       176, 3, 97, 163, 150, 23, 122, 156, 180, 16, 255, 97, 242, 0, 21, 173] := by
  decide

/-- `beBytes` always produces exactly `k` bytes. -/
theorem beBytes_length (k n : Nat) : (beBytes k n).length = k := by
  induction k generalizing n with
  | zero => rfl
  | succ k ih => simp [beBytes, ih]

/-- `be64` always produces exactly eight bytes. -/
theorem be64_length (x : Int) : (be64 x).length = 8 := beBytes_length 8 _

/-- Unfolding `beVal` over a cons. -/
theorem beVal_cons (b : Nat) (l : List Nat) :
    beVal (b :: l) = b * 256 ^ l.length + beVal l := by
  have general : ∀ (l : List Nat) (acc : Nat),
      l.foldl (fun acc b => acc * 256 + b) acc =
        acc * 256 ^ l.length + l.foldl (fun acc b => acc * 256 + b) 0 := by
    intro l
    induction l with
    | nil => intro acc; simp
    | cons c t ih =>
      intro acc
      simp only [List.foldl_cons, List.length_cons]
      rw [ih (acc * 256 + c), ih (0 * 256 + c)]
      ring
  simp only [beVal, List.foldl_cons]
  have := general l (0 * 256 + b)
  simpa [pow_succ] using this

/-- Recomposing the big-endian bytes of `n` gives `n` modulo `256 ^ k`. -/
theorem beVal_beBytes (k n : Nat) : beVal (beBytes k n) = n % 256 ^ k := by
  induction k generalizing n with
  | zero => simp [beBytes, beVal, Nat.mod_one]
  | succ k ih =>
    rw [beBytes, beVal_cons, beBytes_length, ih]
    rw [Nat.shiftRight_eq_div_pow]
    have hpow : (2 : Nat) ^ (8 * k) = 256 ^ k := by
      rw [pow_mul]; norm_num
    rw [hpow, pow_succ, Nat.mod_mul]
    ring

/-- Well-formed metadata: `int64` fields in range, 32-byte fields of bytes. -/
def metaWf (m : KVStashMetadata) : Bool :=
  (-(w63 : Int) ≤ m.offset && m.offset < (w63 : Int)) &&
  (-(w63 : Int) ≤ m.size && m.size < (w63 : Int)) &&
  (-(w63 : Int) ≤ m.flags && m.flags < (w63 : Int)) &&
  (m.segmentFile.length == 32 && bytesWf m.segmentFile) &&
  (m.checksum.length == 32 && bytesWf m.checksum) &&
  (m.mChecksum.length == 32 && bytesWf m.mChecksum)

/-- Decoding the eight big-endian bytes of an `int64` recovers the value
(two's-complement round trip through `uint64`). -/
theorem readI64_be64 (x : Int) (hlo : -(w63 : Int) ≤ x) (hhi : x < (w63 : Int)) :
    readI64 (be64 x) = x := by
  have h8 : (256 : Nat) ^ 8 = w64 := by norm_num [w64]
  rw [readI64, be64, beVal_beBytes, h8]
  simp only [w63, w64] at *
  push_cast at *
  split <;> omega

/-- `shaRound` preserves the length of the state list. -/
theorem shaRound_length (st : List Nat) (kw : Nat) :
    (shaRound st kw).length = st.length := by
  unfold shaRound
  split
  · simp_all
  · rfl

/-- Folding `shaRound` preserves the length of the state list. -/
theorem foldl_shaRound_length (kws : List Nat) (st : List Nat) :
    (kws.foldl shaRound st).length = st.length := by
  induction kws generalizing st with
  | nil => rfl
  | cons k t ih => simp [List.foldl_cons, ih, shaRound_length]

/-- `shaBlock` preserves the length of the hash state. -/
theorem shaBlock_length (h block : List Nat) :
    (shaBlock h block).length = h.length := by
  simp [shaBlock, List.length_zip, foldl_shaRound_length]

/-- Folding `shaBlock` preserves the length of the hash state. -/
theorem foldl_shaBlock_length (bs : List (List Nat)) (h : List Nat) :
    (bs.foldl shaBlock h).length = h.length := by
  induction bs generalizing h with
  | nil => rfl
  | cons b t ih => simp [List.foldl_cons, ih, shaBlock_length]

/-- Flat-mapping four-byte encodings quadruples the length. -/
theorem flatMap_beBytes4_length (l : List Nat) :
    (l.flatMap (beBytes 4)).length = 4 * l.length := by
  induction l with
  | nil => rfl
  | cons a t ih => simp [List.flatMap_cons, beBytes_length, ih]; ring

/-- SHA-256 digests are always 32 bytes. -/
theorem sha256_length (msg : List Nat) : (sha256 msg).length = 32 := by
  show (((chunks64 (shaPad msg)).foldl shaBlock shaH0).flatMap (beBytes 4)).length = 32
  rw [flatMap_beBytes4_length, foldl_shaBlock_length]
  rfl

/-- Slicing at position 0 of an append recovers the left part. -/
theorem sub_here (l r : List Nat) (len : Nat) (h : l.length = len) :
    sub (l ++ r) 0 len = l := by
  simp [sub, List.take_append_eq_append_take, h]

/-- Slicing past the left part of an append slices the right part. -/
theorem sub_skip (l r : List Nat) (pos len : Nat) (h : l.length ≤ pos) :
    sub (l ++ r) pos len = sub r (pos - l.length) len := by
  simp [sub, List.drop_append_eq_append_drop, Nat.sub_eq_zero_of_le h,
    List.drop_eq_nil_of_le h]

/-- Slicing an entire list. -/
theorem sub_all (l : List Nat) (len : Nat) (h : l.length = len) :
    sub l 0 len = l := by
  simp [sub, ← h]

/-- The serialised form of well-formed metadata is 120 bytes. -/
theorem serializeMeta_length (m : KVStashMetadata) (hwf : metaWf m = true) :
    (serializeMeta m).length = metadataSize := by
  simp only [metaWf, Bool.and_eq_true, beq_iff_eq] at hwf
  simp [serializeMeta, be64_length, metadataSize, hwf.1.1.2.1, hwf.1.2.1, hwf.2.1]

/-- C10: for every well-formed metadata record, `Serialize` produces exactly
`MetadataSize` (120) bytes and `Deserialize` of that output succeeds and
reproduces every field; `Deserialize` fails on any input whose length is not
`MetadataSize`. -/
theorem claim10_serialize_roundtrip (m : KVStashMetadata) (hwf : metaWf m = true) :
    (serializeMeta m).length = metadataSize ∧
    deserializeMeta (serializeMeta m) = some m ∧
    ∀ bs : List Nat, bs.length ≠ metadataSize → deserializeMeta bs = none := by
  have hlen := serializeMeta_length m hwf
  obtain ⟨o, sz, fl, seg, ck, mck⟩ := m
  simp only [metaWf, Bool.and_eq_true, beq_iff_eq, decide_eq_true_eq] at hwf
  obtain ⟨⟨⟨⟨⟨⟨hol, hoh⟩, hsl, hsh⟩, hfl, hfh⟩, hsegl, _⟩, hckl, _⟩, hmckl, _⟩ := hwf
  have e : serializeMeta ⟨o, sz, fl, seg, ck, mck⟩ =
      be64 o ++ (be64 sz ++ (be64 fl ++ (seg ++ (ck ++ mck)))) := by
    simp [serializeMeta, List.append_assoc]
  have h8o := be64_length o
  have h8s := be64_length sz
  have h8f := be64_length fl
  refine ⟨hlen, ?_, ?_⟩
  · rw [deserializeMeta, if_neg (by rw [hlen]; simp)]
    rw [e] at hlen ⊢
    have s0 : sub (be64 o ++ (be64 sz ++ (be64 fl ++ (seg ++ (ck ++ mck))))) 0 8 =
        be64 o := sub_here _ _ _ h8o
    have s8 : sub (be64 o ++ (be64 sz ++ (be64 fl ++ (seg ++ (ck ++ mck))))) 8 8 =
        be64 sz := by
      rw [sub_skip _ _ 8 8 (le_of_eq h8o), h8o]
      exact sub_here _ _ _ h8s
    have s16 : sub (be64 o ++ (be64 sz ++ (be64 fl ++ (seg ++ (ck ++ mck))))) 16 8 =
        be64 fl := by
      rw [sub_skip _ _ 16 8 (by omega), h8o,
          sub_skip _ _ 8 8 (by omega), h8s]
      exact sub_here _ _ _ h8f
    have s24 : sub (be64 o ++ (be64 sz ++ (be64 fl ++ (seg ++ (ck ++ mck))))) 24 32 =
        seg := by
      rw [sub_skip _ _ 24 32 (by omega), h8o,
          sub_skip _ _ 16 32 (by omega), h8s,
          sub_skip _ _ 8 32 (by omega), h8f]
      exact sub_here _ _ _ hsegl
    have s56 : sub (be64 o ++ (be64 sz ++ (be64 fl ++ (seg ++ (ck ++ mck))))) 56 32 =
        ck := by
      rw [sub_skip _ _ 56 32 (by omega), h8o,
          sub_skip _ _ 48 32 (by omega), h8s,
          sub_skip _ _ 40 32 (by omega), h8f,
          sub_skip _ _ 32 32 (by omega), hsegl]
      exact sub_here _ _ _ hckl
    have s88 : sub (be64 o ++ (be64 sz ++ (be64 fl ++ (seg ++ (ck ++ mck))))) 88 32 =
        mck := by
      rw [sub_skip _ _ 88 32 (by omega), h8o,
          sub_skip _ _ 80 32 (by omega), h8s,
          sub_skip _ _ 72 32 (by omega), h8f,
          sub_skip _ _ 64 32 (by omega), hsegl,
          sub_skip _ _ 32 32 (by omega), hckl]
      exact sub_all _ _ hmckl
    rw [s0, s8, s16, s24, s56, s88]
    rw [readI64_be64 o hol hoh, readI64_be64 sz hsl hsh, readI64_be64 fl hfl hfh]
  · intro bs h
    simp [deserializeMeta, h]

/-- All-zero metadata record used as a concrete witness. -/
theorem claim10_witness :
    metaWf ⟨0, 0, 0, List.replicate 32 0, List.replicate 32 0, List.replicate 32 0⟩ = true ∧
    deserializeMeta (serializeMeta
        ⟨0, 0, 0, List.replicate 32 0, List.replicate 32 0, List.replicate 32 0⟩) =
      some ⟨0, 0, 0, List.replicate 32 0, List.replicate 32 0, List.replicate 32 0⟩ :=
  ⟨by decide, (claim10_serialize_roundtrip _ (by decide)).2.1⟩

/-- C2 (amended): `ComputeChecksum` computes the value digest as
SHA-256(offset ‖ size ‖ flags ‖ filename ‖ payload) and the header digest as
SHA-256(offset ‖ size ‖ flags ‖ filename ‖ value digest), integers big-endian
and the filename a raw zero-padded 32-byte field; `ValidateMChecksum`
recomputes exactly that header-digest computation; but the Get-path
verification (`fetchValue` in src) recomputes the value digest WITHOUT the
flags word, as SHA-256(offset ‖ size ‖ filename ‖ payload). -/
theorem claim2_digest_fieldset (offset size flags : Int) (name data : List Nat)
    (hname : name.length ≤ 32) :
    ∃ m, computeChecksum offset size flags name data = some m ∧
      m.checksum = sha256 (be64 offset ++ be64 size ++ be64 flags ++
        (name ++ List.replicate (32 - name.length) 0) ++ data) ∧
      m.mChecksum = sha256 (be64 offset ++ be64 size ++ be64 flags ++
        (name ++ List.replicate (32 - name.length) 0) ++ m.checksum) ∧
      validateMChecksum m = true ∧
      getPathRecomputedDigest offset size name data =
        sha256 (be64 offset ++ be64 size ++
          (name ++ List.replicate (32 - name.length) 0) ++ data) ∧
      ∀ m' : KVStashMetadata, validateMChecksum m' = true ↔
        m'.mChecksum = sha256 (be64 m'.offset ++ be64 m'.size ++ be64 m'.flags ++
          m'.segmentFile ++ m'.checksum) := by
  have hpad : fitFileName name = some (name ++ List.replicate (32 - name.length) 0) := by
    simp [fitFileName, Nat.not_lt.mpr hname]
  refine ⟨_, by rw [computeChecksum, hpad], ?_, ?_, ?_, ?_, ?_⟩
  · simp [computeChecksum, hpad]
  · simp [computeChecksum, hpad]
  · simp [computeChecksum, hpad, validateMChecksum]
  · simp [getPathRecomputedDigest, hpad]
  · intro m'
    rw [validateMChecksum, beq_iff_eq]
    simp [eq_comm]

set_option maxRecDepth 4000 in
/-- C2 counterexample: at the first record a Put of ("k","v") writes, the
value digest stored by `ComputeChecksum` (flags word included, here 0) is
not the digest the Get path recomputes (flags word omitted): the two
computations hash different byte strings. -/
theorem claim2_counterexample :
    (computeChecksum 120 23 0 activeLogFileName
        (jsonMarshal (strBytes "k") (strBytes "v"))).map KVStashMetadata.checksum ≠
      some (getPathRecomputedDigest 120 23 activeLogFileName
        (jsonMarshal (strBytes "k") (strBytes "v"))) := by
  decide

/-- Concrete instantiation of `claim2_digest_fieldset`. -/
theorem claim2_witness :
    validateMChecksum ((computeChecksum 120 23 0 (strBytes "seg0.log")
        (strBytes "x")).getD ⟨0, 0, 0, [], [], []⟩) = true := by
  obtain ⟨m, hm, _, _, hv, _, _⟩ :=
    claim2_digest_fieldset 120 23 0 (strBytes "seg0.log") (strBytes "x") (by decide)
  simp [hm]
  exact hv

/-- Inverting a successful `computeChecksum`: the metadata carries the inputs,
the padded name, and two 32-byte digests. -/
theorem computeChecksum_some (offset size flags : Int) (name data : List Nat)
    (m : KVStashMetadata) (h : computeChecksum offset size flags name data = some m) :
    m.offset = offset ∧ m.size = size ∧ m.flags = flags ∧
    m.segmentFile = name ++ List.replicate (32 - name.length) 0 ∧
    m.segmentFile.length = 32 ∧ m.checksum.length = 32 ∧ m.mChecksum.length = 32 ∧
    name.length ≤ 32 := by
  unfold computeChecksum at h
  cases hf : fitFileName name with
  | none =>
    rw [hf] at h
    exact absurd h (by simp)
  | some nb =>
    rw [hf] at h
    unfold fitFileName at hf
    by_cases hlen : name.length > 32
    · rw [if_pos hlen] at hf; cases hf
    · rw [if_neg hlen] at hf
      simp only [Option.some.injEq] at hf h
      subst hf
      subst h
      refine ⟨rfl, rfl, rfl, rfl, ?_, sha256_length _, sha256_length _, by omega⟩
      simp
      omega

/-- `computeChecksum` succeeds exactly on names of at most 32 bytes. -/
theorem computeChecksum_isSome (offset size flags : Int) (name data : List Nat)
    (hname : name.length ≤ 32) :
    ∃ m, computeChecksum offset size flags name data = some m := by
  unfold computeChecksum fitFileName
  rw [if_neg (by omega)]
  exact ⟨_, rfl⟩

/-- The serialised header of a record built by `computeChecksum` is exactly
120 bytes. -/
theorem serializeMeta_length_of_compute (offset size flags : Int)
    (name data : List Nat) (m : KVStashMetadata)
    (h : computeChecksum offset size flags name data = some m) :
    (serializeMeta m).length = metadataSize := by
  obtain ⟨-, -, -, -, h32, hck, hmck, -⟩ := computeChecksum_some _ _ _ _ _ _ h
  simp [serializeMeta, be64_length, h32, hck, hmck, metadataSize]

/-- `WriteAt` at the end of the file appends. -/
theorem overwriteAt_append (file bytes : List Nat) :
    overwriteAt file file.length bytes = file ++ bytes := by
  simp [overwriteAt, List.drop_eq_nil_of_le]

/-- A write whose two `WriteAt` calls fully succeed returns the computed
metadata, advances the offset past header and payload, and appends
header-then-payload to the file when the offset is the file length. -/
theorem logWriteA_append (name : List Nat) (hname : name.length ≤ 32)
    (file data : List Nat) (flags : List Int) :
    ∃ m, computeChecksum ((file.length : Int) + (metadataSize : Int))
        (data.length : Int) (computeMetadataFlag flags) name data = some m ∧
      logWriteA (okEnvFor data.length) name (file.length : Int) file data flags =
        (.ok m, (file.length : Int) + (metadataSize : Int) + (data.length : Int),
          file ++ serializeMeta m ++ data) := by
  obtain ⟨m, hm⟩ := computeChecksum_isSome ((file.length : Int) + (metadataSize : Int))
    (data.length : Int) (computeMetadataFlag flags) name data hname
  refine ⟨m, hm, ?_⟩
  obtain ⟨-, hsize, -, -, -, -, -, -⟩ := computeChecksum_some _ _ _ _ _ _ hm
  have hser := serializeMeta_length_of_compute _ _ _ _ _ _ hm
  simp only [logWriteA, hm, okEnvFor]
  rw [if_neg (by simp)]
  rw [if_neg (by simp)]
  have htake : (serializeMeta m).take metadataSize = serializeMeta m := by
    rw [← hser]; simp
  have hoff : ((file.length : Int)).toNat = file.length := by omega
  rw [htake, hoff, overwriteAt_append]
  have hlen2 : ((file.length : Int) + (metadataSize : Int)).toNat =
      (file ++ serializeMeta m).length := by
    simp [hser]; omega
  rw [if_neg (by simp [hsize])]
  rw [hlen2, overwriteAt_append]
  simp [hsize, List.append_assoc]

/-- C3: a failed write (header error, short header, payload error or short
payload) leaves the writer offset exactly where it was, so the next
successful write computes its record at that offset; only a fully successful
write advances the offset, by the 120-byte header plus the payload size, and
the record it returns carries the value offset `old offset + MetadataSize`. -/
theorem claim3_write_offset (env : WriteEnv) (name : List Nat) (offset0 : Int)
    (file data : List Nat) (flags : List Int) :
    (∀ e o1 f1, logWriteA env name offset0 file data flags = (.error e, o1, f1) →
      o1 = offset0) ∧
    (∀ m o1 f1, logWriteA env name offset0 file data flags = (.ok m, o1, f1) →
      o1 = offset0 + (metadataSize : Int) + (data.length : Int) ∧
      m.offset = offset0 + (metadataSize : Int) ∧ m.size = (data.length : Int)) := by
  cases hcc : computeChecksum (offset0 + (metadataSize : Int)) (data.length : Int)
      (computeMetadataFlag flags) name data with
  | none =>
    constructor
    · intro e o1 f1 h
      simp only [logWriteA, hcc, Prod.mk.injEq] at h
      exact h.2.1.symm
    · intro m o1 f1 h
      simp only [logWriteA, hcc, Prod.mk.injEq] at h
      exact absurd h.1 (by simp)
  | some metadata =>
    obtain ⟨hmo, hms, -, -, -, -, -, -⟩ := computeChecksum_some _ _ _ _ _ _ hcc
    constructor
    · intro e o1 f1 h
      simp only [logWriteA, hcc] at h
      by_cases hh1 : env.headerErr = true
      · rw [if_pos hh1] at h
        simp only [Prod.mk.injEq] at h
        exact h.2.1.symm
      · rw [if_neg hh1] at h
        by_cases hh2 : env.headerN ≠ metadataSize
        · rw [if_pos hh2] at h
          simp only [Prod.mk.injEq] at h
          exact h.2.1.symm
        · rw [if_neg hh2] at h
          by_cases hh3 : (env.valueErr || decide ((env.valueN : Int) ≠ metadata.size)) = true
          · rw [if_pos hh3] at h
            simp only [Prod.mk.injEq] at h
            have h2 := h.2.1
            omega
          · rw [if_neg hh3] at h
            simp only [Prod.mk.injEq] at h
            exact absurd h.1 (by simp)
    · intro m o1 f1 h
      simp only [logWriteA, hcc] at h
      by_cases hh1 : env.headerErr = true
      · rw [if_pos hh1] at h
        simp only [Prod.mk.injEq] at h
        exact absurd h.1 (by simp)
      · rw [if_neg hh1] at h
        by_cases hh2 : env.headerN ≠ metadataSize
        · rw [if_pos hh2] at h
          simp only [Prod.mk.injEq] at h
          exact absurd h.1 (by simp)
        · rw [if_neg hh2] at h
          by_cases hh3 : (env.valueErr || decide ((env.valueN : Int) ≠ metadata.size)) = true
          · rw [if_pos hh3] at h
            simp only [Prod.mk.injEq] at h
            exact absurd h.1 (by simp)
          · rw [if_neg hh3] at h
            simp only [Prod.mk.injEq, Except.ok.injEq] at h
            obtain ⟨hm, ho, -⟩ := h
            subst hm
            have hval : (env.valueN : Int) = metadata.size := by
              simp only [Bool.or_eq_true, decide_eq_true_eq] at hh3
              push_neg at hh3
              exact hh3.2
            refine ⟨?_, hmo, hms⟩
            rw [← ho, hval, hms]

/-- Concrete instantiation of `claim3_write_offset`: a payload write that
reports an error rolls the offset back to 0. -/
theorem claim3_witness :
    (logWriteA ⟨metadataSize, false, 0, true⟩ activeLogFileName 0 []
      (strBytes "x") []).2.1 = 0 := by
  rcases hw : logWriteA ⟨metadataSize, false, 0, true⟩ activeLogFileName 0 []
      (strBytes "x") [] with ⟨r, o1, f1⟩
  have hr : r = Except.error KVErr.writeFailed := by
    have h1 : (logWriteA ⟨metadataSize, false, 0, true⟩ activeLogFileName 0 []
        (strBytes "x") []).1 = Except.error KVErr.writeFailed := by decide
    rw [hw] at h1
    exact h1
  subst hr
  have h0 := (claim3_write_offset ⟨metadataSize, false, 0, true⟩ activeLogFileName 0 []
    (strBytes "x") []).1 KVErr.writeFailed o1 f1 hw
  exact h0

/-- With a fully successful environment, the write succeeds at any offset and
advances it past header and payload. -/
theorem logWriteA_okEnv_ok (name : List Nat) (hname : name.length ≤ 32)
    (offset0 : Int) (file data : List Nat) (flags : List Int) :
    ∃ m f1, logWriteA (okEnvFor data.length) name offset0 file data flags =
      (.ok m, offset0 + (metadataSize : Int) + (data.length : Int), f1) := by
  obtain ⟨m, hm⟩ := computeChecksum_isSome (offset0 + (metadataSize : Int))
    (data.length : Int) (computeMetadataFlag flags) name data hname
  obtain ⟨-, hms, -, -, -, -, -, -⟩ := computeChecksum_some _ _ _ _ _ _ hm
  refine ⟨m, overwriteAt (overwriteAt file offset0.toNat
      ((serializeMeta m).take metadataSize)) (offset0 + (metadataSize : Int)).toNat
      (data.take data.length), ?_⟩
  simp only [logWriteA, hm, okEnvFor]
  rw [if_neg (by simp), if_neg (by simp), if_neg (by simp [hms])]

/-- C9: `Set` rejects exactly the out-of-bounds inputs — empty key
(`EmptyKey`), key longer than MaxKeySize (`KeyTooLarge`), value longer than
MaxValueSize (`ValueTooLarge`) — returning with the whole store state (index
and files) unchanged, while a key of exactly MaxKeySize and a value of
exactly MaxValueSize pass validation and the Put succeeds. -/
theorem claim9_set_bounds (st : StoreA) (k v : List Nat) :
    (setA st k v = (.error .emptyKey, st) ↔ k.length = 0) ∧
    (setA st k v = (.error .keyTooLarge, st) ↔ k.length ≠ 0 ∧ k.length > maxKeySize) ∧
    (setA st k v = (.error .valueTooLarge, st) ↔
      k.length ≠ 0 ∧ k.length ≤ maxKeySize ∧ v.length > maxValueSize) ∧
    (k.length ≠ 0 → k.length ≤ maxKeySize → v.length ≤ maxValueSize →
      ∃ st1, setA st k v = (.ok (), st1)) := by
  by_cases h1 : k.length = 0
  · have hset : setA st k v = (.error .emptyKey, st) := by
      simp [setA, h1]
    refine ⟨by simp [hset, h1], ?_, ?_, ?_⟩
    · rw [hset]
      constructor
      · intro he
        exact absurd he (by simp)
      · intro hr
        omega
    · rw [hset]
      constructor
      · intro he
        exact absurd he (by simp)
      · intro hr
        omega
    · intro hk
      omega
  · by_cases h2 : k.length > maxKeySize
    · have hset : setA st k v = (.error .keyTooLarge, st) := by
        simp [setA, h1, h2]
      refine ⟨?_, by simp [hset, h1, h2], ?_, ?_⟩
      · rw [hset]
        constructor
        · intro he
          exact absurd he (by simp)
        · intro hr
          omega
      · rw [hset]
        constructor
        · intro he
          exact absurd he (by simp)
        · intro hr
          omega
      · intro _ hk
        omega
    · by_cases h3 : v.length > maxValueSize
      · have hset : setA st k v = (.error .valueTooLarge, st) := by
          simp [setA, h1, h2, h3]
        refine ⟨?_, ?_, by simp [hset, h1, h3]; omega, ?_⟩
        · rw [hset]
          constructor
          · intro he
            exact absurd he (by simp)
          · intro hr
            omega
        · rw [hset]
          constructor
          · intro he
            exact absurd he (by simp)
          · intro hr
            omega
        · intro _ _ hv
          omega
      · obtain ⟨m, f1, hw⟩ := logWriteA_okEnv_ok activeLogFileName (by decide)
          st.writerOffset st.active (jsonMarshal k v) []
        have hset : setA st k v = (.ok (),
            { st with
                writerOffset := st.writerOffset + (metadataSize : Int) +
                  ((jsonMarshal k v).length : Int)
                active := f1
                index := indexSet st.index k
                  ⟨activeLogFileName, m.offset, m.size, false, m.checksum⟩ }) := by
          simp only [setA, if_neg h1, if_neg h2, if_neg h3, hw]
        refine ⟨?_, ?_, ?_, fun _ _ _ => ⟨_, hset⟩⟩
        · rw [hset]
          constructor
          · intro he
            exact absurd he (by simp)
          · intro hr
            omega
        · rw [hset]
          constructor
          · intro he
            exact absurd he (by simp)
          · intro hr
            omega
        · rw [hset]
          constructor
          · intro he
            exact absurd he (by simp)
          · intro hr
            omega

set_option maxRecDepth 4000 in
/-- Concrete instantiation of `claim9_set_bounds`: a key of exactly
MaxKeySize (256 bytes) is accepted on the empty store. -/
theorem claim9_witness :
    ∃ st1, setA emptyStoreA (List.replicate maxKeySize 107) (strBytes "v") =
      (.ok (), st1) :=
  (claim9_set_bounds emptyStoreA (List.replicate maxKeySize 107) (strBytes "v")).2.2.2
    (by decide) (by decide) (by decide)

/-- Archived segment names never collide with the active log name. -/
theorem segFileName_ne_active (n : Nat) : segFileName n ≠ activeLogFileName := by
  intro h
  have hh : (segFileName n).head? = activeLogFileName.head? := by rw [h]
  simp [segFileName, activeLogFileName, strBytes] at hh

/-- If every segment before position `i` scans cleanly and the segment at `i`
is a non-active segment whose scan errors, the `buildIndex` loop returns the
empty index and that error. -/
theorem buildIndexLoop_archived_fatal
    (pre : List (List Nat × List Nat)) (name f : List Nat)
    (post : List (List Nat × List Nat)) :
    ∀ idx0 idx1 idx2 e, scanAllOk pre idx0 = some idx1 →
      readSegmentA f name idx1 = (idx2, some e) →
      name ≠ activeLogFileName →
      buildIndexLoop (pre ++ (name, f) :: post) idx0 = ([], some e) := by
  induction pre with
  | nil =>
    intro idx0 idx1 idx2 e hok hrd hne
    simp only [scanAllOk, Option.some.injEq] at hok
    subst hok
    simp only [List.nil_append, buildIndexLoop, hrd]
    rw [if_pos hne]
  | cons p rest ih =>
    intro idx0 idx1 idx2 e hok hrd hne
    obtain ⟨n0, f0⟩ := p
    simp only [scanAllOk] at hok
    rcases hr0 : readSegmentA f0 n0 idx0 with ⟨idxm, err0⟩
    rw [hr0] at hok
    cases err0 with
    | some e0 => exact absurd hok (by simp)
    | none =>
      simp only [List.cons_append, buildIndexLoop, hr0]
      exact ih idxm idx1 idx2 e hok hrd hne

/-- If every archived segment scans cleanly and the active log's scan stops
with an error, the `buildIndex` loop succeeds with every entry read so far
retained. -/
theorem buildIndexLoop_active_tolerant
    (pre : List (List Nat × List Nat)) (active : List Nat) :
    ∀ idx0 idx1 idx2 e, scanAllOk pre idx0 = some idx1 →
      readSegmentA active activeLogFileName idx1 = (idx2, some e) →
      buildIndexLoop (pre ++ [(activeLogFileName, active)]) idx0 = (idx2, none) := by
  induction pre with
  | nil =>
    intro idx0 idx1 idx2 e hok hrd
    simp only [scanAllOk, Option.some.injEq] at hok
    subst hok
    simp only [List.nil_append, buildIndexLoop, hrd]
    rw [if_neg (by simp)]
  | cons p rest ih =>
    intro idx0 idx1 idx2 e hok hrd
    obtain ⟨n0, f0⟩ := p
    simp only [scanAllOk] at hok
    rcases hr0 : readSegmentA f0 n0 idx0 with ⟨idxm, err0⟩
    rw [hr0] at hok
    cases err0 with
    | some e0 => exact absurd hok (by simp)
    | none =>
      simp only [List.cons_append, buildIndexLoop, hr0]
      exact ih idxm idx1 idx2 e hok hrd

/-- C4: during the startup index rebuild, a scan error in an archived
(non-active) segment — with every earlier segment clean — clears the whole
index and makes startup fail with that error, whereas a scan error in the
active log stops that scan with every entry scanned so far retained and
startup succeeding. -/
theorem claim4_rebuild_policy (archived : List (Nat × List Nat)) (active : List Nat) :
    (∀ pre n f post idx1 idx2 e,
      (sortSegs archived).map (fun p => (segFileName p.1, p.2)) =
        pre ++ (segFileName n, f) :: post →
      scanAllOk pre [] = some idx1 →
      readSegmentA f (segFileName n) idx1 = (idx2, some e) →
      restartA archived active = .error e) ∧
    (∀ idx1 idx2 e,
      scanAllOk ((sortSegs archived).map (fun p => (segFileName p.1, p.2))) [] = some idx1 →
      readSegmentA active activeLogFileName idx1 = (idx2, some e) →
      restartA archived active = .ok ⟨archived, active, idx2, (active.length : Int)⟩) := by
  constructor
  · intro pre n f post idx1 idx2 e hsplit hok hrd
    have hb : buildIndexLoop (pre ++ (segFileName n, f) ::
        (post ++ [(activeLogFileName, active)])) [] = ([], some e) :=
      buildIndexLoop_archived_fatal pre (segFileName n) f _ [] idx1 idx2 e hok hrd
        (segFileName_ne_active n)
    have hg : getSegmentFilesA ⟨archived, active, [], 0⟩ =
        pre ++ (segFileName n, f) :: (post ++ [(activeLogFileName, active)]) := by
      simp only [getSegmentFilesA, hsplit, List.append_assoc, List.cons_append]
    simp only [restartA, buildIndexA, hg, hb]
  · intro idx1 idx2 e hok hrd
    have hb : buildIndexLoop (((sortSegs archived).map (fun p => (segFileName p.1, p.2))) ++
        [(activeLogFileName, active)]) [] = (idx2, none) :=
      buildIndexLoop_active_tolerant _ active [] idx1 idx2 e hok hrd
    simp only [restartA, buildIndexA, getSegmentFilesA, hb]

/-- Concrete instantiation of `claim4_rebuild_policy`: a three-byte
(truncated) `seg0.log` makes startup fail; the same three bytes as the
active log are tolerated and startup succeeds with an empty index. -/
theorem claim4_witness :
    restartA [(0, [1, 2, 3])] [] = .error .truncatedMetadata ∧
    restartA [] [1, 2, 3] = .ok ⟨[], [1, 2, 3], [], 3⟩ := by
  constructor
  · exact (claim4_rebuild_policy [(0, [1, 2, 3])] []).1 [] 0 [1, 2, 3] [] [] [] 
      .truncatedMetadata (by decide) (by decide) (by decide)
  · exact (claim4_rebuild_policy [] [1, 2, 3]).2 [] [] .truncatedMetadata
      (by decide) (by decide)

set_option maxRecDepth 20000 in
/-- C1 (divergence at the failing input): after Put("k","v"); Delete("k") and
a clean restart, the memory-only reference semantics says Get("k") finds
nothing (KeyNotFound), but the engine's rebuilt index resurrects the
tombstone as a live entry — `readSegment` never consults the header's Flags
word and never sets `Deleted` — and the subsequent Get fails digest
verification against the tombstone record instead of returning KeyNotFound. -/
theorem claim1_replay_delete_divergence :
    memGet (memRun [KVOp.put (strBytes "k") (strBytes "v"),
        KVOp.del (strBytes "k")] []) (strBytes "k") = none ∧
    (restartA [] (runOpsA emptyStoreA [KVOp.put (strBytes "k") (strBytes "v"),
          KVOp.del (strBytes "k")]).active).map
        (fun st => (getA st (strBytes "k")).1) =
      Except.ok (Except.error KVErr.checksumMismatch) := by
  constructor
  · decide
  · decide

set_option maxRecDepth 20000 in
/-- C6 (divergence at the failing input): after Put("k","v"); Delete("k") the
index entry for "k" has `deleted = true`, yet `Get` does not return
KeyNotFound: it never consults the flag, performs the positional disk read
of the tombstone record, fails digest verification, and even purges the
entry. -/
theorem claim6_get_deleted_divergence :
    (indexLookup demoPutDelete.index (strBytes "k")).map (fun e => e.deleted) =
      some true ∧
    (getA demoPutDelete (strBytes "k")).1 = .error .checksumMismatch ∧
    (getA demoPutDelete (strBytes "k")).1 ≠ .error .keyNotFound ∧
    (getA demoPutDelete (strBytes "k")).2.index = [] := by
  refine ⟨by decide, by decide, by decide, by decide⟩

set_option maxRecDepth 20000 in
/-- C7 counterexample: flipping the payload byte that closes the value
string (byte 141 of the active log, inside the stored payload of "k") makes
the payload undecodable JSON; `Get` then returns a deserialisation error —
not ValueCorrupt — the index entry is NOT purged, and the immediately
following Get returns the same deserialisation error, not KeyNotFound
(`fetchValue` decodes the JSON before comparing checksums). -/
theorem claim7_counterexample :
    (getA demoCorruptQuote (strBytes "k")).1 = .error .deserializeFailed ∧
    (getA demoCorruptQuote (strBytes "k")).2.index = demoCorruptQuote.index ∧
    (getA (getA demoCorruptQuote (strBytes "k")).2 (strBytes "k")).1 =
      .error .deserializeFailed := by
  refine ⟨by decide, by decide, by decide⟩

/-- A key absent from the key column cannot be found. -/
theorem indexLookup_eq_none (t : KVIndex) (k : List Nat)
    (h : k ∉ t.map Prod.fst) : indexLookup t k = none := by
  induction t with
  | nil => rfl
  | cons p t ih =>
    simp only [List.map_cons, List.mem_cons] at h
    push_neg at h
    have hne : (p.1 == k) = false := by
      simp only [beq_eq_false_iff_ne]
      exact fun he => h.1 (he ▸ rfl)
    simp only [indexLookup, List.find?, hne]
    simpa [indexLookup] using ih h.2

/-- Erasing a key from an index with unique keys makes it unfindable. -/
theorem indexLookup_erase_self (idx : KVIndex) (k : List Nat)
    (hnd : (idx.map Prod.fst).Nodup) :
    indexLookup (indexErase idx k) k = none := by
  induction idx with
  | nil => rfl
  | cons p t ih =>
    obtain ⟨k1, e1⟩ := p
    simp only [List.map_cons, List.nodup_cons] at hnd
    simp only [indexErase]
    by_cases h : k1 == k
    · rw [if_pos h]
      have hk : k1 = k := by simpa using h
      subst hk
      exact indexLookup_eq_none t k1 hnd.1
    · rw [if_neg h]
      have hne2 : (k1 == k) = false := by simpa using h
      simp only [indexLookup, List.find?, hne2]
      simpa [indexLookup] using ih hnd.2

/-- C7 (amended): for every stored key whose index entry resolves to a
payload that still decodes as JSON but whose recomputed value digest differs
from the stored digest — which is what any single-byte alteration of a
stored payload produces unless it either breaks the JSON decoding (see the
counterexample) or finds a SHA-256 collision — the next Get returns
ValueCorrupt and removes the key's index entry, so the immediately following
Get returns KeyNotFound. -/
theorem claim7_purge_on_mismatch (st : StoreA) (k : List Nat)
    (entry : KVStashIndexEntry) (f : List Nat) (kv : List Nat × List Nat)
    (hnd : (st.index.map Prod.fst).Nodup)
    (hlk : indexLookup st.index k = some entry)
    (hf : lookupFileA st entry.segmentFile = some f)
    (hsz : 0 < entry.size) (hoff : 0 ≤ entry.offset)
    (hbound : entry.offset + entry.size ≤ (f.length : Int))
    (hdec : jsonDecode (sub f entry.offset.toNat entry.size.toNat) = some kv)
    (hmm : valueDigest entry.offset entry.size 0 entry.segmentFile
      (sub f entry.offset.toNat entry.size.toNat) ≠ entry.checksum) :
    (getA st k).1 = .error .checksumMismatch ∧
    (getA st k).2.index = indexErase st.index k ∧
    (getA (getA st k).2 k).1 = .error .keyNotFound := by
  have hne : (valueDigest entry.offset entry.size 0 entry.segmentFile
      (sub f entry.offset.toNat entry.size.toNat) == entry.checksum) = false := by
    simpa using hmm
  have hfetch : fetchValueA st entry.segmentFile entry.offset entry.size entry.checksum
      = .error .checksumMismatch := by
    rw [fetchValueA, if_neg (by omega), if_neg (by omega)]
    simp only [hf]
    rw [if_neg (by omega)]
    simp only [hdec, hne]
    rfl
  have hget : getA st k = (.error .checksumMismatch,
      { st with index := indexErase st.index k }) := by
    simp [getA, hlk, hfetch]
  refine ⟨by rw [hget], by rw [hget], ?_⟩
  rw [hget]
  have hlk2 : indexLookup (indexErase st.index k) k = none :=
    indexLookup_erase_self st.index k hnd
  simp only [getA, hlk2]

set_option maxRecDepth 20000 in
/-- Concrete instantiation of `claim7_purge_on_mismatch`: flipping the value
byte "v" to "w" (byte 140 of the active log) keeps the payload valid JSON;
Get returns the checksum-mismatch error (ValueCorrupt) and purges, and the
following Get returns KeyNotFound. -/
theorem claim7_witness :
    (getA demoCorruptValue (strBytes "k")).1 = .error .checksumMismatch ∧
    (getA (getA demoCorruptValue (strBytes "k")).2 (strBytes "k")).1 =
      .error .keyNotFound := by
  have h := claim7_purge_on_mismatch demoCorruptValue (strBytes "k")
    ((indexLookup demoCorruptValue.index (strBytes "k")).getD ⟨[], 0, 0, false, []⟩)
    demoCorruptValue.active
    ((jsonDecode (sub demoCorruptValue.active 120 23)).getD ([], []))
    (by decide) (by decide) (by decide) (by decide) (by decide) (by decide)
    (by decide) (by decide)
  exact ⟨h.1, h.2.2⟩

/-- Folding the decimal accumulator over an append. -/
theorem digitsVal_append_one (l : List Nat) (d : Nat) :
    digitsVal (l ++ [d]) = digitsVal l * 10 + (d - 48) := by
  have general : ∀ (l : List Nat) (acc : Nat),
      (l ++ [d]).foldl (fun acc b => acc * 10 + (b - 48)) acc =
        l.foldl (fun acc b => acc * 10 + (b - 48)) acc * 10 + (d - 48) := by
    intro l
    induction l with
    | nil => intro acc; simp
    | cons a t ih => intro acc; simp [List.foldl_cons, ih]
  exact general l 0

/-- The decimal rendering round-trips through its value (with enough fuel). -/
theorem digitsVal_natDigitsAux (fuel n : Nat) (h : n < fuel) :
    digitsVal (natDigitsAux fuel n) = n := by
  induction fuel generalizing n with
  | zero => omega
  | succ fuel ih =>
    rw [natDigitsAux]
    by_cases h10 : n < 10
    · rw [if_pos h10]
      simp only [digitsVal, List.foldl_cons, List.foldl_nil]
      omega
    · rw [if_neg h10]
      rw [digitsVal_append_one]
      have hrec : digitsVal (natDigitsAux fuel (n / 10)) = n / 10 := by
        apply ih
        omega
      rw [hrec]
      omega

/-- The decimal rendering of a number determines it. -/
theorem natDigits_inj (n m : Nat) (h : natDigits n = natDigits m) : n = m := by
  have hn := digitsVal_natDigitsAux (n + 1) n (by omega)
  have hm := digitsVal_natDigitsAux (m + 1) m (by omega)
  simp only [natDigits] at h
  rw [← hn, ← hm, h]

/-- Segment file names are injective in the segment number. -/
theorem segFileName_inj (n m : Nat) (h : segFileName n = segFileName m) : n = m := by
  apply natDigits_inj
  simp only [segFileName] at h
  have h1 : strBytes "seg" ++ natDigits n = strBytes "seg" ++ natDigits m :=
    List.append_cancel_right h
  exact List.append_cancel_left h1

/-- Length of the decimal rendering: `d + 1` digits cover numbers below
`10 ^ (d + 1)` (with enough fuel). -/
theorem natDigitsAux_length (d : Nat) :
    ∀ fuel n, n < fuel → n < 10 ^ (d + 1) → (natDigitsAux fuel n).length ≤ d + 1 := by
  induction d with
  | zero =>
    intro fuel n hf hb
    match fuel with
    | fuel' + 1 =>
      rw [natDigitsAux, if_pos (by simpa using hb)]
      simp
  | succ d ih =>
    intro fuel n hf hb
    match fuel with
    | fuel' + 1 =>
      rw [natDigitsAux]
      by_cases h10 : n < 10
      · rw [if_pos h10]
        simp
      · rw [if_neg h10]
        have hb' : n < 10 ^ (d + 1) * 10 := by
          calc n < 10 ^ (d + 1 + 1) := hb
          _ = 10 ^ (d + 1) * 10 := by ring
        have hdiv : n / 10 < 10 ^ (d + 1) := Nat.div_lt_of_lt_mul (by omega)
        have hlen := ih fuel' (n / 10) (by omega) hdiv
        rw [List.length_append]
        simp only [List.length_cons, List.length_nil]
        omega

/-- Lookup after insert-or-replace at the same key. -/
theorem indexLookup_set_self (idx : KVIndex) (k : List Nat) (e : KVStashIndexEntry) :
    indexLookup (indexSet idx k e) k = some e := by
  induction idx with
  | nil => simp [indexSet, indexLookup, List.find?]
  | cons p t ih =>
    obtain ⟨k1, e1⟩ := p
    simp only [indexSet]
    by_cases h : k1 == k
    · rw [if_pos h]
      simp [indexLookup, List.find?]
    · rw [if_neg h]
      simp only [indexLookup, List.find?] at ih ⊢
      rw [show (k1 == k) = false from by simpa using h]
      exact ih

/-- Lookup after insert-or-replace at a different key. -/
theorem indexLookup_set_other (idx : KVIndex) (k k' : List Nat)
    (e : KVStashIndexEntry) (hne : k' ≠ k) :
    indexLookup (indexSet idx k e) k' = indexLookup idx k' := by
  induction idx with
  | nil =>
    simp only [indexSet, indexLookup, List.find?]
    rw [show (k == k') = false from by simpa using fun h => hne h.symm]
  | cons p t ih =>
    obtain ⟨k1, e1⟩ := p
    simp only [indexSet]
    by_cases h : k1 == k
    · rw [if_pos h]
      have hk : k1 = k := by simpa using h
      subst hk
      simp only [indexLookup, List.find?]
      rw [show (k1 == k') = false from by simpa using fun he => hne he.symm]
    · rw [if_neg h]
      simp only [indexLookup, List.find?] at ih ⊢
      by_cases h2 : k1 == k'
      · rw [h2]
      · rw [show (k1 == k') = false from by simpa using h2]
        exact ih

/-- Members of the updated index are the new pair or old members. -/
theorem indexSet_mem (idx : KVIndex) (k : List Nat) (e : KVStashIndexEntry)
    (p : List Nat × KVStashIndexEntry) (hp : p ∈ indexSet idx k e) :
    p = (k, e) ∨ p ∈ idx := by
  induction idx with
  | nil =>
    simp only [indexSet] at hp
    simp at hp
    exact Or.inl hp
  | cons q t ih =>
    obtain ⟨k1, e1⟩ := q
    simp only [indexSet] at hp
    by_cases h : k1 == k
    · rw [if_pos h] at hp
      rcases List.mem_cons.mp hp with h1 | h1
      · exact Or.inl h1
      · exact Or.inr (List.mem_cons_of_mem _ h1)
    · rw [if_neg h] at hp
      rcases List.mem_cons.mp hp with h1 | h1
      · exact Or.inr (h1 ▸ List.mem_cons_self _ _)
      · rcases ih h1 with h2 | h2
        · exact Or.inl h2
        · exact Or.inr (List.mem_cons_of_mem _ h2)

/-- Keys of the updated index are the new key or old keys. -/
theorem indexSet_keys_subset (idx : KVIndex) (k : List Nat) (e : KVStashIndexEntry)
    (x : List Nat) (hx : x ∈ (indexSet idx k e).map Prod.fst) :
    x = k ∨ x ∈ idx.map Prod.fst := by
  rcases List.mem_map.mp hx with ⟨p, hp, hpx⟩
  rcases indexSet_mem idx k e p hp with h | h
  · left; rw [← hpx, h]
  · right; exact List.mem_map.mpr ⟨p, h, hpx⟩

/-- Insert-or-replace preserves key uniqueness. -/
theorem indexSet_nodup (idx : KVIndex) (k : List Nat) (e : KVStashIndexEntry)
    (hnd : (idx.map Prod.fst).Nodup) :
    ((indexSet idx k e).map Prod.fst).Nodup := by
  induction idx with
  | nil => simp [indexSet]
  | cons q t ih =>
    obtain ⟨k1, e1⟩ := q
    simp only [List.map_cons, List.nodup_cons] at hnd
    simp only [indexSet]
    by_cases h : k1 == k
    · rw [if_pos h]
      have hk : k1 = k := by simpa using h
      subst hk
      simp only [List.map_cons, List.nodup_cons]
      exact ⟨hnd.1, hnd.2⟩
    · rw [if_neg h]
      simp only [List.map_cons, List.nodup_cons]
      refine ⟨?_, ih hnd.2⟩
      intro hmem
      rcases indexSet_keys_subset t k e k1 hmem with h1 | h1
      · exact absurd h1 (by simpa using h)
      · exact hnd.1 h1

/-- The live byte count over a cons. -/
theorem liveSumB_cons (p : List Nat × KVStashIndexEntry) (idx : KVIndex) :
    liveSumB (p :: idx) =
      (if p.2.deleted then 0 else metadataSize + p.2.size.toNat) + liveSumB idx := by
  simp only [liveSumB, List.filter_cons]
  cases hd : p.2.deleted
  · simp [hd]
  · simp [hd]

/-- Updating a key bounds the live byte count by the old count plus the new
entry's contribution. -/
theorem liveSumB_set_le (idx : KVIndex) (k : List Nat) (e : KVStashIndexEntry) :
    liveSumB (indexSet idx k e) ≤
      liveSumB idx + (if e.deleted then 0 else metadataSize + e.size.toNat) := by
  induction idx with
  | nil =>
    simp only [indexSet]
    rw [liveSumB_cons]
    cases hd : e.deleted <;> simp_all [liveSumB]
  | cons q t ih =>
    obtain ⟨k1, e1⟩ := q
    simp only [indexSet]
    by_cases h : k1 == k
    · rw [if_pos h, liveSumB_cons, liveSumB_cons]
      cases hd : e.deleted <;> cases hd1 : e1.deleted <;> simp_all <;> try omega
    · rw [if_neg h, liveSumB_cons, liveSumB_cons]
      cases hd : e.deleted <;> cases hd1 : e1.deleted <;> simp_all <;> try omega

/-- The live byte count splits over an append. -/
theorem liveSumB_append (a b : KVIndex) :
    liveSumB (a ++ b) = liveSumB a + liveSumB b := by
  simp [liveSumB, List.filter_append]

/-- Replacing the (unique) last element. -/
theorem replaceLast_concat (t : List (Nat × List Nat)) (y x : Nat × List Nat) :
    replaceLast (t ++ [y]) x = t ++ [x] := by
  induction t with
  | nil => rfl
  | cons a t ih =>
    cases t with
    | nil => rfl
    | cons b t' => simpa [replaceLast] using ih

/-- A list with a known last element splits off that element. -/
theorem getLast?_concat (l : List (Nat × List Nat)) (a : Nat × List Nat)
    (h : l.getLast? = some a) : ∃ t, l = t ++ [a] := by
  induction l with
  | nil => cases h
  | cons b l ih =>
    cases l with
    | nil =>
      simp only [List.getLast?_singleton, Option.some.injEq] at h
      exact ⟨[], by simp [h]⟩
    | cons c l' =>
      rw [List.getLast?_cons_cons] at h
      obtain ⟨t, ht⟩ := ih h
      exact ⟨b :: t, by rw [List.cons_append, ← ht]⟩

/-- The executable chain test coincides with `List.Chain'` of strict order. -/
theorem ascChain_iff_chain (l : List Nat) :
    ascChain l = true ↔ List.Chain' (· < ·) l := by
  induction l with
  | nil => simp [ascChain]
  | cons a t ih =>
    cases t with
    | nil => simp [ascChain]
    | cons b t' =>
      rw [ascChain, List.chain'_cons, Bool.and_eq_true, decide_eq_true_eq, ih]

/-- The chain test coincides with pairwise strict order. -/
theorem ascChain_iff_pairwise (l : List Nat) :
    ascChain l = true ↔ List.Pairwise (· < ·) l := by
  rw [ascChain_iff_chain, List.chain'_iff_pairwise]

/-- Every number in an ascending chain before the appended last is below it. -/
theorem ascChain_append_lt (l : List Nat) (m : Nat)
    (h : ascChain (l ++ [m]) = true) : ∀ x ∈ l, x < m := by
  have hp := (ascChain_iff_pairwise _).mp h
  rw [List.pairwise_append] at hp
  intro x hx
  exact hp.2.2 x hx m (List.mem_singleton_self m)

/-- Appending a strictly larger number keeps the chain ascending. -/
theorem ascChain_append_of_lt (l : List Nat) (m : Nat)
    (hasc : ascChain l = true) (hlt : ∀ x ∈ l, x < m) :
    ascChain (l ++ [m]) = true := by
  rw [ascChain_iff_pairwise] at hasc ⊢
  rw [List.pairwise_append]
  exact ⟨hasc, List.pairwise_singleton _ _, fun a ha b hb => by
    rw [List.mem_singleton] at hb
    exact hb ▸ hlt a ha⟩

/-- Every member is bounded by the running maximum. -/
theorem le_foldr_max (l : List Nat) (x : Nat) (hx : x ∈ l) : x ≤ l.foldr max 0 := by
  induction l with
  | nil => cases hx
  | cons a t ih =>
    rcases List.mem_cons.mp hx with h | h
    · subst h
      rw [List.foldr_cons]
      exact Nat.le_max_left _ _
    · have h1 := ih h
      rw [List.foldr_cons]
      exact h1.trans (Nat.le_max_right _ _)

/-- The running maximum of a list with a dominating appended element. -/
theorem foldr_max_concat (l : List Nat) (m : Nat) (hle : ∀ x ∈ l, x ≤ m) :
    (l ++ [m]).foldr max 0 = m := by
  induction l with
  | nil => simp
  | cons a t ih =>
    have ha := hle a (List.mem_cons_self _ _)
    rw [List.cons_append, List.foldr_cons, ih (fun x hx => hle x (List.mem_cons_of_mem _ hx))]
    omega

/-- Safe bytes escape to themselves. -/
theorem escByte_safe (b : Nat) (hb : jsonSafeByte b = true) : escByte b = [b] := by
  simp only [jsonSafeByte, Bool.and_eq_true, decide_eq_true_eq, bne_iff_ne] at hb
  obtain ⟨⟨⟨⟨⟨⟨h1, h2⟩, h3⟩, h4⟩, h5⟩, h6⟩, h7⟩ := hb
  simp only [escByte]
  rw [if_neg (by simpa using h3), if_neg (by simpa using h4),
      if_neg (by simp; omega), if_neg (by simp; omega), if_neg (by simp; omega),
      if_neg (by omega), if_neg (by simp; omega)]

/-- Safe byte strings escape to themselves. -/
theorem jsonEscape_safe (l : List Nat) (hl : jsonSafe l = true) : jsonEscape l = l := by
  induction l with
  | nil => rfl
  | cons b t ih =>
    simp only [jsonSafe, List.all_cons, Bool.and_eq_true] at hl
    simp only [jsonEscape, List.flatMap_cons]
    rw [escByte_safe b hl.1]
    have ih2 := ih (by simp [jsonSafe, hl.2])
    simp only [jsonEscape] at ih2
    rw [ih2]
    rfl

/-- Parsing a safe string body stops exactly at the closing quote. -/
theorem parseQuoted_safe (k : List Nat) (rest : List Nat) (hk : jsonSafe k = true) :
    ∀ fuel, k.length < fuel → parseQuoted fuel (k ++ [34] ++ rest) = some (k, rest) := by
  induction k with
  | nil =>
    intro fuel hf
    match fuel with
    | fuel' + 1 => simp [parseQuoted]
  | cons b t ih =>
    intro fuel hf
    match fuel with
    | fuel' + 1 =>
      simp only [jsonSafe, List.all_cons, Bool.and_eq_true] at hk
      have hb := hk.1
      simp only [jsonSafeByte, Bool.and_eq_true, decide_eq_true_eq, bne_iff_ne] at hb
      obtain ⟨⟨⟨⟨⟨⟨h32, h127⟩, h34⟩, h92⟩, h60⟩, h62⟩, h38⟩ := hb
      simp only [List.cons_append, parseQuoted]
      rw [if_neg (by simpa using h34), if_neg (by simpa using h92)]
      have ht := ih hk.2 fuel' (by simpa using hf)
      simp only [List.append_assoc] at ht
      simp only [List.append_eq, List.append_assoc]
      rw [ht]
      rfl

/-- Matching an exact prefix succeeds and returns the remainder. -/
theorem expectBytes_append (pat r : List Nat) : expectBytes pat (pat ++ r) = some r := by
  simp [expectBytes, List.take_append_eq_append_take, List.drop_append_eq_append_drop]

/-- The canonical JSON round trip for safe keys and values. -/
theorem jsonDecode_marshal (k v : List Nat) (hk : jsonSafe k = true)
    (hv : jsonSafe v = true) : jsonDecode (jsonMarshal k v) = some (k, v) := by
  have hmktail : jsonMid = [34] ++ (jsonMid.drop 1) := by decide
  have hm : jsonMarshal k v = jsonHead ++
      (k ++ [34] ++ ((jsonMid.drop 1) ++ (v ++ [34] ++ [125]))) := by
    rw [jsonMarshal, jsonEscape_safe k hk, jsonEscape_safe v hv]
    rw [show jsonEnd = [34] ++ [125] from by decide]
    conv_lhs => rw [hmktail]
    simp [List.append_assoc]
  have h1 := parseQuoted_safe k ((jsonMid.drop 1) ++ (v ++ [34] ++ [125])) hk
    (k ++ [34] ++ ((jsonMid.drop 1) ++ (v ++ [34] ++ [125]))).length (by simp)
  have h2 := parseQuoted_safe v [125] hv (v ++ [34] ++ [125]).length (by simp)
  rw [hm, jsonDecode]
  simp only [expectBytes_append, h1, h2]
  simp

/-- Length of the canonical JSON encoding of safe keys and values. -/
theorem jsonMarshal_length (k v : List Nat) (hk : jsonSafe k = true)
    (hv : jsonSafe v = true) :
    (jsonMarshal k v).length = 21 + k.length + v.length := by
  rw [jsonMarshal, jsonEscape_safe k hk, jsonEscape_safe v hv]
  simp [jsonHead, jsonMid, jsonEnd, strBytes]
  omega

/-- The value digest stored by `computeChecksum` is the digest the read path
recomputes over the same fields. -/
theorem computeChecksum_checksum (offset size flags : Int) (name data : List Nat)
    (m : KVStashMetadata) (h : computeChecksum offset size flags name data = some m) :
    m.checksum = valueDigest offset size flags name data := by
  unfold computeChecksum at h
  cases hf : fitFileName name with
  | none => rw [hf] at h; cases h
  | some nb =>
    rw [hf] at h
    simp only [Option.some.injEq] at h
    subst h
    simp [valueDigest, hf]

/-- Slices within the left part of an append are stable. -/
theorem sub_append_left (f X : List Nat) (pos len : Nat) (h : pos + len ≤ f.length) :
    sub (f ++ X) pos len = sub f pos len := by
  simp only [sub, List.drop_append_eq_append_drop, List.take_append_eq_append_take]
  have hlen : len - (f.drop pos).length = 0 := by
    simp only [List.length_drop]
    omega
  rw [hlen]
  simp

/-- The slice that exactly covers an appended suffix. -/
theorem sub_append_exact (A data : List Nat) :
    sub (A ++ data) A.length data.length = data := by
  simp [sub, List.drop_append_eq_append_drop]

/-- Segment names stay within the 32-byte filename field while the segment
number is below `10^25`. -/
theorem segFileName_length_le (n : Nat) (h : n < 10 ^ 25) :
    (segFileName n).length ≤ 32 := by
  have hd : (natDigits n).length ≤ 25 :=
    natDigitsAux_length 24 (n + 1) n (by omega) (by simpa using h)
  simp only [segFileName, List.length_append, natDigits]
  simp only [natDigits] at hd
  simp [strBytes]
  omega

/-- Total segment bytes of a store whose directory splits off the active
file. -/
theorem totalBytesB_concat (t : List (Nat × List Nat)) (num : Nat) (f : List Nat)
    (c : Nat) (idx : KVIndex) :
    totalBytesB ⟨t ++ [(num, f)], c, idx⟩ =
      (t.map (fun p => p.2.length)).sum + f.length := by
  simp [totalBytesB]

/-- A successful lookup exhibits a member with that key. -/
theorem indexLookup_some_mem (idx : KVIndex) (k : List Nat) (e : KVStashIndexEntry)
    (h : indexLookup idx k = some e) : (k, e) ∈ idx := by
  unfold indexLookup at h
  cases hf : idx.find? (fun p => p.1 == k) with
  | none => rw [hf] at h; cases h
  | some q =>
    rw [hf] at h
    simp only [Option.some.injEq] at h
    have hq := List.find?_some hf
    have hm := List.mem_of_find?_eq_some hf
    obtain ⟨q1, q2⟩ := q
    simp only [beq_iff_eq] at hq
    subst hq
    subst h
    exact hm

/-- With unique keys, membership determines the lookup. -/
theorem mem_indexLookup (idx : KVIndex) (p : List Nat × KVStashIndexEntry)
    (hnd : (idx.map Prod.fst).Nodup) (hp : p ∈ idx) :
    indexLookup idx p.1 = some p.2 := by
  induction idx with
  | nil => cases hp
  | cons q t ih =>
    simp only [List.map_cons, List.nodup_cons] at hnd
    rcases List.mem_cons.mp hp with h | h
    · subst h
      simp [indexLookup, List.find?]
    · have hne : (q.1 == p.1) = false := by
        simp only [beq_eq_false_iff_ne]
        intro he
        exact hnd.1 (he ▸ List.mem_map.mpr ⟨p, h, rfl⟩)
      simp only [indexLookup, List.find?, hne]
      exact ih hnd.2 h

/-- Unpacking the well-formedness test. -/
theorem wfB_spec (S : StoreB) :
    wfB S = true ↔
      S.segs ≠ [] ∧ ascChain (S.segs.map Prod.fst) = true ∧
      S.counter ≤ maxKeysPerSegment ∧ (S.index.map Prod.fst).Nodup ∧
      liveSumB S.index ≤ totalBytesB S ∧
      ∀ p ∈ S.index, p.2.deleted = true ∨ entryOkB S p.1 p.2 = true := by
  simp [wfB, Bool.and_eq_true, decide_eq_true_eq, List.all_eq_true,
    Bool.or_eq_true, List.isEmpty_iff, and_assoc]

/-- Growing files in place (and possibly adding files) preserves a live
entry's resolved payload. -/
theorem entryPayload_mono (S S' : StoreB) (e : KVStashIndexEntry)
    (hmono : ∀ name file, lookupFileB S name = some file →
      ∃ X, lookupFileB S' name = some (file ++ X))
    (payload : List Nat) (h : entryPayload S e = some payload) :
    entryPayload S' e = some payload := by
  unfold entryPayload at h ⊢
  cases hf : lookupFileB S e.segmentFile with
  | none =>
    simp only [hf] at h
    simp at h
  | some f =>
    simp only [hf] at h
    obtain ⟨X, hX⟩ := hmono _ _ hf
    simp only [hX]
    by_cases hc : 0 < e.size ∧ 0 ≤ e.offset ∧ e.offset + e.size ≤ (f.length : Int)
    · rw [if_pos hc] at h
      have hc' : 0 < e.size ∧ 0 ≤ e.offset ∧
          e.offset + e.size ≤ ((f ++ X).length : Int) := by
        refine ⟨hc.1, hc.2.1, ?_⟩
        simp only [List.length_append]
        have h3 := hc.2.2
        omega
      rw [if_pos hc']
      rw [← h]
      congr 1
      apply sub_append_left
      obtain ⟨h1, h2, h3⟩ := hc
      omega
    · rw [if_neg hc] at h
      cases h

/-- Growing files in place preserves a live entry's coherence. -/
theorem entryOkB_mono (S S' : StoreB) (k : List Nat) (e : KVStashIndexEntry)
    (hmono : ∀ name file, lookupFileB S name = some file →
      ∃ X, lookupFileB S' name = some (file ++ X))
    (hok : entryOkB S k e = true) : entryOkB S' k e = true := by
  unfold entryOkB at hok ⊢
  cases hp : entryPayload S e with
  | none =>
    simp only [hp] at hok
    simp at hok
  | some payload =>
    simp only [hp] at hok
    simp only [entryPayload_mono S S' e hmono payload hp]
    exact hok

/-- When a key resolves to the same entry and files only grow, the logical
value of that key is unchanged. -/
theorem absB_point (S S' : StoreB) (k : List Nat)
    (hidx : indexLookup S'.index k = indexLookup S.index k)
    (hmono : ∀ name file, lookupFileB S name = some file →
      ∃ X, lookupFileB S' name = some (file ++ X))
    (hent : ∀ p ∈ S.index, p.2.deleted = true ∨ entryOkB S p.1 p.2 = true) :
    absB S' k = absB S k := by
  unfold absB
  rw [hidx]
  cases hlk : indexLookup S.index k with
  | none => simp only [hlk]
  | some e =>
    simp only [hlk]
    by_cases hd : e.deleted
    · simp [hd]
    · have hmem := indexLookup_some_mem _ _ _ hlk
      rcases hent _ hmem with h | h
      · exact absurd h (by simpa using hd)
      · unfold entryOkB at h
        cases hp : entryPayload S e with
        | none =>
          simp only [hp] at h
          simp at h
        | some payload =>
          simp only [entryPayload_mono S S' e hmono payload hp, hp]

/-- Unpacking a coherent live entry. -/
theorem entryOkB_elim (S : StoreB) (k : List Nat) (e : KVStashIndexEntry)
    (h : entryOkB S k e = true) :
    ∃ f payload kv, lookupFileB S e.segmentFile = some f ∧
      0 < e.size ∧ 0 ≤ e.offset ∧ e.offset + e.size ≤ (f.length : Int) ∧
      payload = sub f e.offset.toNat e.size.toNat ∧
      jsonDecode payload = some kv ∧ kv.1 = k ∧ payload = jsonMarshal kv.1 kv.2 ∧
      jsonSafe k = true ∧ jsonSafe kv.2 = true ∧ 0 < k.length ∧
      k.length ≤ maxKeySize ∧ kv.2.length ≤ maxValueSize ∧
      e.size = (payload.length : Int) ∧
      e.checksum = valueDigest e.offset e.size 0 e.segmentFile payload := by
  unfold entryOkB entryPayload at h
  cases hf : lookupFileB S e.segmentFile with
  | none =>
    simp only [hf] at h
    simp at h
  | some f =>
    simp only [hf] at h
    by_cases hc : 0 < e.size ∧ 0 ≤ e.offset ∧ e.offset + e.size ≤ (f.length : Int)
    · rw [if_pos hc] at h
      cases hd : jsonDecode (sub f e.offset.toNat e.size.toNat) with
      | none =>
        simp only [hd] at h
        simp at h
      | some kv =>
        simp only [hd, Bool.and_eq_true, beq_iff_eq, decide_eq_true_eq] at h
        obtain ⟨⟨⟨⟨⟨⟨⟨⟨h1, h2⟩, h3⟩, h4⟩, h5⟩, h6⟩, h7⟩, h8⟩, h9⟩ := h
        exact ⟨f, _, kv, rfl, hc.1, hc.2.1, hc.2.2, rfl, hd, h1, h2, h3, h4, h5, h6,
          h7, h8, h9⟩
    · rw [if_neg hc] at h
      cases h

/-- C8 groundwork: under well-formedness, Get is read-only and returns the
logical value (or KeyNotFound). -/
theorem getB_abs (S : StoreB) (hwf : wfB S = true) (k : List Nat) :
    getB S k = (match absB S k with
      | some v => (.ok v, S)
      | none => (.error .keyNotFound, S)) := by
  obtain ⟨-, -, -, -, -, hent⟩ := (wfB_spec S).mp hwf
  unfold getB absB
  cases hlk : indexLookup S.index k with
  | none => simp only [hlk]
  | some e =>
    simp only [hlk]
    by_cases hd : e.deleted
    · simp [hd]
    · have hmem := indexLookup_some_mem _ _ _ hlk
      rcases hent _ hmem with h | h
      · exact absurd h (by simpa using hd)
      · obtain ⟨f, payload, kv, hf, hs, ho, hb, hpay, hdec, hk1, hpm, hks, hvs,
          hkl, hkle, hvle, hsz, hck⟩ := entryOkB_elim S k e h
        have hfetch : fetchValueB S e.segmentFile e.offset e.size e.checksum =
            .ok kv.2 := by
          unfold fetchValueB
          rw [if_neg (by omega), if_neg (by omega)]
          simp only [hf]
          rw [if_neg (by omega)]
          simp only [← hpay, hdec]
          rw [if_pos (by rw [hck]; exact beq_self_eq_true _)]
        simp only [hfetch]
        have hpayload : entryPayload S e = some payload := by
          unfold entryPayload
          simp only [hf]
          rw [if_pos ⟨hs, ho, hb⟩, hpay]
        simp only [hpayload]
        simp [hd, hdec]

/-- A name resolving in a store still resolves, to the same or an extended
file, after the last segment's file is extended in place. -/
theorem lookupFileB_grow_last (t : List (Nat × List Nat)) (num : Nat)
    (f X : List Nat) (c c' : Nat) (i i' : KVIndex) (name g : List Nat)
    (h : lookupFileB ⟨t ++ [(num, f)], c, i⟩ name = some g) :
    ∃ Y, lookupFileB ⟨t ++ [(num, f ++ X)], c', i'⟩ name = some (g ++ Y) := by
  unfold lookupFileB at h ⊢
  rw [List.find?_append] at h ⊢
  cases hf : t.find? (fun p => segFileName p.1 == name) with
  | some q =>
    simp only [hf, Option.or] at h ⊢
    refine ⟨[], ?_⟩
    simp only [Option.some.injEq] at h ⊢
    simp [← h]
  | none =>
    simp only [hf, Option.or] at h ⊢
    cases hb : (segFileName num == name) with
    | false =>
      simp only [List.find?, hb] at h
      cases h
    | true =>
      simp only [List.find?, hb] at h ⊢
      simp only [Option.some.injEq] at h
      exact ⟨X, by simp [← h]⟩

/-- A name resolving in a store resolves identically after a new segment is
appended at the end of the directory. -/
theorem lookupFileB_append_new (segs : List (Nat × List Nat)) (x : Nat × List Nat)
    (c c' : Nat) (i i' : KVIndex) (name g : List Nat)
    (h : lookupFileB ⟨segs, c, i⟩ name = some g) :
    lookupFileB ⟨segs ++ [x], c', i'⟩ name = some g := by
  unfold lookupFileB at h ⊢
  rw [List.find?_append]
  cases hf : segs.find? (fun p => segFileName p.1 == name) with
  | some q => simp only [hf] at h; simp [hf, h]
  | none => simp only [hf] at h; cases h

/-- The last segment resolves under its own name when every earlier segment
has a smaller number. -/
theorem lookupFileB_last (t : List (Nat × List Nat)) (num : Nat) (f : List Nat)
    (c : Nat) (i : KVIndex) (hlt : ∀ p ∈ t, p.1 < num) :
    lookupFileB ⟨t ++ [(num, f)], c, i⟩ (segFileName num) = some f := by
  unfold lookupFileB
  rw [List.find?_append]
  have hf : t.find? (fun p => segFileName p.1 == segFileName num) = none := by
    rw [List.find?_eq_none]
    intro p hp hbe
    have he : segFileName p.1 = segFileName num := by simpa using hbe
    have := segFileName_inj _ _ he
    have := hlt p hp
    omega
  simp only [hf, Option.or]
  simp [List.find?]

/-- Lookup distributes over an index append. -/
theorem indexLookup_append (a b : KVIndex) (k : List Nat) :
    indexLookup (a ++ b) k = match indexLookup a k with
      | some e => some e
      | none => indexLookup b k := by
  unfold indexLookup
  rw [List.find?_append]
  cases hf : a.find? (fun p => p.1 == k) with
  | some q => simp [hf]
  | none => simp [hf]

/-- Core of a successful Put against a rotating store whose active (last)
segment has capacity: the record is appended wholly to the active segment,
and the result is well-formed, grows by exactly header plus payload, and
updates the logical contents pointwise at the written key. -/
theorem putCore (t : List (Nat × List Nat)) (num : Nat) (f : List Nat)
    (c : Nat) (idx : KVIndex) (k v : List Nat)
    (hasc : ascChain ((t ++ [(num, f)]).map Prod.fst) = true)
    (hc : c < maxKeysPerSegment)
    (hnd : (idx.map Prod.fst).Nodup)
    (hlive : liveSumB idx ≤ totalBytesB ⟨t ++ [(num, f)], c, idx⟩)
    (hent : ∀ p ∈ idx, p.2.deleted = true ∨
      entryOkB ⟨t ++ [(num, f)], c, idx⟩ p.1 p.2 = true)
    (hnum : num < 10 ^ 25)
    (h0 : 0 < k.length) (hk : k.length ≤ maxKeySize) (hv : v.length ≤ maxValueSize)
    (hsk : jsonSafe k = true) (hsv : jsonSafe v = true) :
    ∃ m S',
      logWriteA (okEnvFor (jsonMarshal k v).length) (segFileName num)
          ((f.length : Int)) f (jsonMarshal k v) [] =
        (.ok m, (f.length : Int) + (metadataSize : Int) +
          ((jsonMarshal k v).length : Int),
          f ++ serializeMeta m ++ jsonMarshal k v) ∧
      S' = (⟨t ++ [(num, f ++ serializeMeta m ++ jsonMarshal k v)], c + 1,
        indexSet idx k ⟨segFileName num, m.offset, m.size, false, m.checksum⟩⟩ :
          StoreB) ∧
      wfB S' = true ∧
      totalBytesB S' = totalBytesB ⟨t ++ [(num, f)], c, idx⟩ + metadataSize +
        (jsonMarshal k v).length ∧
      absB S' k = some v ∧
      (∀ k', k' ≠ k → absB S' k' = absB ⟨t ++ [(num, f)], c, idx⟩ k') := by
  have hname : (segFileName num).length ≤ 32 := segFileName_length_le num hnum
  obtain ⟨m, hm, hw⟩ := logWriteA_append (segFileName num) hname f (jsonMarshal k v) []
  obtain ⟨hmo, hms, -, -, -, -, -, -⟩ := computeChecksum_some _ _ _ _ _ _ hm
  have hflag0 : computeMetadataFlag ([] : List Int) = 0 := rfl
  have hckeq : m.checksum = valueDigest ((f.length : Int) + (metadataSize : Int))
      (((jsonMarshal k v).length : Int)) 0 (segFileName num) (jsonMarshal k v) := by
    have h1 := computeChecksum_checksum _ _ _ _ _ _ hm
    rwa [hflag0] at h1
  have hser : (serializeMeta m).length = metadataSize :=
    serializeMeta_length_of_compute _ _ _ _ _ _ hm
  have hdlen : 0 < (jsonMarshal k v).length := by
    rw [jsonMarshal_length k v hsk hsv]; omega
  have hofftoNat : m.offset.toNat = f.length + metadataSize := by
    rw [hmo]; simp only [metadataSize]; omega
  have hsizetoNat : m.size.toNat = (jsonMarshal k v).length := by
    rw [hms]; omega
  have hltt : ∀ p ∈ t, p.1 < num := by
    have h1 := ascChain_append_lt (t.map Prod.fst) num (by simpa using hasc)
    intro p hp
    exact h1 p.1 (List.mem_map.mpr ⟨p, hp, rfl⟩)
  have hlookS' : lookupFileB ⟨t ++ [(num, f ++ serializeMeta m ++ jsonMarshal k v)],
      c + 1, indexSet idx k ⟨segFileName num, m.offset, m.size, false, m.checksum⟩⟩
      (segFileName num) = some (f ++ serializeMeta m ++ jsonMarshal k v) :=
    lookupFileB_last _ _ _ _ _ hltt
  have hmono : ∀ name file, lookupFileB ⟨t ++ [(num, f)], c, idx⟩ name = some file →
      ∃ X, lookupFileB ⟨t ++ [(num, f ++ serializeMeta m ++ jsonMarshal k v)],
        c + 1, indexSet idx k ⟨segFileName num, m.offset, m.size, false, m.checksum⟩⟩
        name = some (file ++ X) := by
    intro name file h
    have h1 := lookupFileB_grow_last t num f (serializeMeta m ++ jsonMarshal k v)
      c (c + 1) idx
      (indexSet idx k ⟨segFileName num, m.offset, m.size, false, m.checksum⟩)
      name file h
    simpa [List.append_assoc] using h1
  have hpayNew : entryPayload
      ⟨t ++ [(num, f ++ serializeMeta m ++ jsonMarshal k v)], c + 1,
        indexSet idx k ⟨segFileName num, m.offset, m.size, false, m.checksum⟩⟩
      ⟨segFileName num, m.offset, m.size, false, m.checksum⟩ =
      some (jsonMarshal k v) := by
    unfold entryPayload
    simp only [hlookS']
    rw [if_pos ?hcond]
    case hcond =>
      refine ⟨by rw [hms]; exact_mod_cast hdlen, by rw [hmo]; positivity, ?_⟩
      rw [hms, hmo]
      simp only [List.length_append, hser]
      push_cast
      omega
    have h1 : f.length + metadataSize = (f ++ serializeMeta m).length := by
      simp [hser]
    rw [hofftoNat, hsizetoNat, h1, sub_append_exact]
  have hdec : jsonDecode (jsonMarshal k v) = some (k, v) := jsonDecode_marshal k v hsk hsv
  have hokNew : entryOkB
      ⟨t ++ [(num, f ++ serializeMeta m ++ jsonMarshal k v)], c + 1,
        indexSet idx k ⟨segFileName num, m.offset, m.size, false, m.checksum⟩⟩
      k ⟨segFileName num, m.offset, m.size, false, m.checksum⟩ = true := by
    have hck2 : m.checksum =
        valueDigest m.offset m.size 0 (segFileName num) (jsonMarshal k v) := by
      rw [hmo, hms]; exact hckeq
    unfold entryOkB
    simp only [hpayNew, hdec]
    simp [hsk, hsv, h0, hk, hv, hms, hck2]
  refine ⟨m, ⟨t ++ [(num, f ++ serializeMeta m ++ jsonMarshal k v)], c + 1,
    indexSet idx k ⟨segFileName num, m.offset, m.size, false, m.checksum⟩⟩,
    hw, rfl, ?_, ?_, ?_, ?_⟩
  · rw [wfB_spec]
    refine ⟨by simp, ?_, by show c + 1 ≤ maxKeysPerSegment; omega, indexSet_nodup _ _ _ hnd, ?_, ?_⟩
    · simp only [List.map_append, List.map_cons, List.map_nil] at hasc ⊢
      exact hasc
    · have h1 := liveSumB_set_le idx k
        ⟨segFileName num, m.offset, m.size, false, m.checksum⟩
      simp only [if_neg (by simp : ¬ (false = true))] at h1
      rw [totalBytesB_concat] at hlive ⊢
      simp only [List.length_append, hser, hsizetoNat] at h1 ⊢
      omega
    · intro p hp
      rcases indexSet_mem idx k _ p hp with h | h
      · subst h
        exact Or.inr hokNew
      · rcases hent p h with hdel | hok
        · exact Or.inl hdel
        · exact Or.inr (entryOkB_mono _ _ _ _ hmono hok)
  · rw [totalBytesB_concat, totalBytesB_concat]
    simp only [List.length_append, hser]
    omega
  · unfold absB
    simp only [indexLookup_set_self, hpayNew, hdec]
    simp
  · intro k' hne
    exact absB_point ⟨t ++ [(num, f)], c, idx⟩ _ k'
      (indexLookup_set_other idx k k' _ hne) hmono hent

/-- Each segment's number is bounded by the directory maximum. -/
theorem segNum_le_maxSegNum (segs : List (Nat × List Nat)) (p : Nat × List Nat)
    (hp : p ∈ segs) : p.1 ≤ maxSegNum segs :=
  le_foldr_max _ _ (List.mem_map.mpr ⟨p, hp, rfl⟩)

/-- The maximum over a directory whose last segment dominates. -/
theorem maxSegNum_concat (t : List (Nat × List Nat)) (num : Nat) (f : List Nat)
    (hlt : ∀ p ∈ t, p.1 < num) : maxSegNum (t ++ [(num, f)]) = num := by
  unfold maxSegNum
  rw [List.map_append]
  simp only [List.map_cons, List.map_nil]
  refine foldr_max_concat _ _ ?_
  intro x hx
  obtain ⟨p, hp, rfl⟩ := List.mem_map.mp hx
  exact Nat.le_of_lt (hlt p hp)

/-- A successful Put against a well-formed rotating store: rotation happens
exactly at the counter threshold, the record lands wholly in the (single)
active segment, the store stays well-formed, grows by exactly header plus
payload, and the logical contents update pointwise at the written key. -/
theorem putB_spec (S : StoreB) (k v : List Nat)
    (hwf : wfB S = true)
    (h0 : 0 < k.length) (hk : k.length ≤ maxKeySize) (hv : v.length ≤ maxValueSize)
    (hsk : jsonSafe k = true) (hsv : jsonSafe v = true)
    (hcap : maxSegNum S.segs + 1 < 10 ^ 25) :
    ∃ S' t num f m,
      putB S k v = (.ok (), S') ∧
      (rotateIfNeeded S).segs = t ++ [(num, f)] ∧
      S'.segs = t ++ [(num, f ++ serializeMeta m ++ jsonMarshal k v)] ∧
      S'.counter = (rotateIfNeeded S).counter + 1 ∧
      wfB S' = true ∧
      totalBytesB S' = totalBytesB S + metadataSize + (jsonMarshal k v).length ∧
      absB S' k = some v ∧
      (∀ k', k' ≠ k → absB S' k' = absB S k') ∧
      maxSegNum S'.segs * maxKeysPerSegment + S'.counter =
        maxSegNum S.segs * maxKeysPerSegment + S.counter + 1 ∧
      num = maxSegNum S'.segs ∧
      (S.counter = maxKeysPerSegment →
        S'.segs.map Prod.fst = S.segs.map Prod.fst ++ [maxSegNum S.segs + 1] ∧
        S'.counter = 1) ∧
      (S.counter ≠ maxKeysPerSegment →
        S'.segs.map Prod.fst = S.segs.map Prod.fst ∧ S'.counter = S.counter + 1) := by
  obtain ⟨hne, hasc, hcnt, hnd, hlive, hent⟩ := (wfB_spec S).mp hwf
  by_cases hrot : S.counter = maxKeysPerSegment
  · -- rotation branch
    have hrotEq : rotateIfNeeded S =
        ⟨S.segs ++ [(maxSegNum S.segs + 1, [])], 0, S.index⟩ := by
      rw [rotateIfNeeded, if_pos hrot]
    have hasc1 : ascChain ((S.segs ++ [(maxSegNum S.segs + 1, [])]).map Prod.fst)
        = true := by
      simp only [List.map_append, List.map_cons, List.map_nil]
      refine ascChain_append_of_lt _ _ hasc ?_
      intro x hx
      obtain ⟨p, hp, rfl⟩ := List.mem_map.mp hx
      have := segNum_le_maxSegNum S.segs p hp
      omega
    have hmonoRot : ∀ name file, lookupFileB S name = some file →
        ∃ X, lookupFileB ⟨S.segs ++ [(maxSegNum S.segs + 1, [])], 0, S.index⟩
          name = some (file ++ X) := by
      intro name file h
      exact ⟨[], by
        simpa using lookupFileB_append_new S.segs (maxSegNum S.segs + 1, [])
          S.counter 0 S.index S.index name file h⟩
    have htotRot : totalBytesB ⟨S.segs ++ [(maxSegNum S.segs + 1, [])], 0, S.index⟩
        = totalBytesB S := by
      simp [totalBytesB]
    have hentRot : ∀ p ∈ S.index, p.2.deleted = true ∨
        entryOkB ⟨S.segs ++ [(maxSegNum S.segs + 1, [])], 0, S.index⟩ p.1 p.2
          = true := by
      intro p hp
      rcases hent p hp with h | h
      · exact Or.inl h
      · exact Or.inr (entryOkB_mono _ _ _ _ hmonoRot h)
    obtain ⟨m, S', hw, hSfin, hwfS', htotS', habsk, habs⟩ :=
      putCore S.segs (maxSegNum S.segs + 1) [] 0 S.index k v hasc1
        (by simp [maxKeysPerSegment]) hnd (htotRot ▸ hlive) hentRot hcap
        h0 hk hv hsk hsv
    have hltAll : ∀ p ∈ S.segs, p.1 < maxSegNum S.segs + 1 := by
      intro p hp
      have := segNum_le_maxSegNum S.segs p hp
      omega
    have hput : putB S k v = (.ok (), S') := by
      rw [hSfin]
      simp only [putB]
      rw [if_neg (by omega), if_neg (by omega), if_neg (by omega), hrotEq]
      simp only [List.getLast?_concat]
      simp only [hw]
      rw [replaceLast_concat]
    have hmax' : maxSegNum S'.segs = maxSegNum S.segs + 1 := by
      rw [hSfin]
      exact maxSegNum_concat _ _ _ hltAll
    refine ⟨S', S.segs, maxSegNum S.segs + 1, [], m, hput, by rw [hrotEq], ?_, ?_,
      hwfS', by rw [htotS', htotRot], habsk, ?_, ?_, ?_, ?_, ?_⟩
    · rw [hSfin]
    · rw [hSfin, hrotEq]
    · intro k' hne'
      rw [habs k' hne']
      exact absB_point S _ k' rfl hmonoRot hent
    · rw [hmax', hSfin]
      simp only [maxKeysPerSegment] at hrot ⊢
      omega
    · rw [hmax']
    · intro h1
      constructor
      · rw [hSfin]
        simp
      · rw [hSfin]
    · intro h1
      exact absurd hrot h1
  · -- no-rotation branch
    have hrotEq : rotateIfNeeded S = S := by
      rw [rotateIfNeeded, if_neg hrot]
    obtain ⟨a, hlast⟩ : ∃ a, S.segs.getLast? = some a := by
      cases hl : S.segs.getLast? with
      | none => exact absurd (List.getLast?_eq_none_iff.mp hl) hne
      | some a => exact ⟨a, rfl⟩
    obtain ⟨num, f⟩ := a
    obtain ⟨t, ht⟩ := getLast?_concat S.segs (num, f) hlast
    have hSeq : (⟨t ++ [(num, f)], S.counter, S.index⟩ : StoreB) = S := by
      rw [← ht]
    have hltt : ∀ p ∈ t, p.1 < num := by
      have h1 := ascChain_append_lt (t.map Prod.fst) num
        (by rw [ht] at hasc; simpa using hasc)
      intro p hp
      exact h1 p.1 (List.mem_map.mpr ⟨p, hp, rfl⟩)
    have hnum : num < 10 ^ 25 := by
      have h1 : num ≤ maxSegNum S.segs :=
        segNum_le_maxSegNum S.segs (num, f) (by rw [ht]; simp)
      omega
    obtain ⟨m, S', hw, hSfin, hwfS', htotS', habsk, habs⟩ :=
      putCore t num f S.counter S.index k v (by rw [ht] at hasc; exact hasc)
        (by omega) hnd (by rw [hSeq]; exact hlive) (by rw [hSeq]; exact hent)
        hnum h0 hk hv hsk hsv
    have hput : putB S k v = (.ok (), S') := by
      rw [hSfin]
      simp only [putB]
      rw [if_neg (by omega), if_neg (by omega), if_neg (by omega), hrotEq]
      simp only [hlast]
      simp only [hw]
      rw [ht, replaceLast_concat]
    have hmax' : maxSegNum S'.segs = num := by
      rw [hSfin]
      exact maxSegNum_concat _ _ _ hltt
    have hmaxS : maxSegNum S.segs = num := by
      rw [ht]
      exact maxSegNum_concat _ _ _ hltt
    refine ⟨S', t, num, f, m, hput, by rw [hrotEq, ht], ?_, ?_, hwfS',
      by rw [htotS', hSeq], habsk, ?_, ?_, ?_, ?_, ?_⟩
    · rw [hSfin]
    · rw [hSfin, hrotEq]
    · intro k' hne'
      rw [habs k' hne', hSeq]
    · rw [hmax', hmaxS, hSfin]
      show num * maxKeysPerSegment + (S.counter + 1) =
        num * maxKeysPerSegment + S.counter + 1
      omega
    · rw [hmax']
    · intro h1
      exact absurd h1 hrot
    · intro h1
      constructor
      · rw [hSfin, ht]
        simp
      · rw [hSfin]

/-- The live entry count splits over an append. -/
theorem liveCountB_append (a b : KVIndex) :
    liveCountB (a ++ b) = liveCountB a + liveCountB b := by
  simp [liveCountB, List.filter_append]

/-- Live entries are bounded by the index length. -/
theorem liveCountB_le_length (idx : KVIndex) : liveCountB idx ≤ idx.length :=
  List.length_filter_le _ _

/-- The copy phase of compaction: folding `compactStep` over the remaining
index entries of a well-formed store keeps the sub-store well-formed, sized
by the live bytes of the processed entries, and logically equal to the
restriction of the main store to the processed live keys. -/
theorem compactFold_inv (S : StoreB) (hwf : wfB S = true)
    (hbig : S.index.length < 10 ^ 27) (todo done : KVIndex) (subS : StoreB)
    (hsplit : S.index = done ++ todo)
    (hwfsub : wfB subS = true)
    (hcount : maxSegNum subS.segs * maxKeysPerSegment + subS.counter =
      liveCountB done)
    (htot : totalBytesB subS = liveSumB done)
    (habs : ∀ k0, absB subS k0 = (match indexLookup done k0 with
      | none => none
      | some e => if e.deleted then none else absB S k0)) :
    ∃ subS', todo.foldl (compactStep S) (some subS) = some subS' ∧
      wfB subS' = true ∧
      maxSegNum subS'.segs * maxKeysPerSegment + subS'.counter =
        liveCountB (done ++ todo) ∧
      totalBytesB subS' = liveSumB (done ++ todo) ∧
      (∀ k0, absB subS' k0 = (match indexLookup (done ++ todo) k0 with
        | none => none
        | some e => if e.deleted then none else absB S k0)) := by
  obtain ⟨-, -, -, hnd, -, hent⟩ := (wfB_spec S).mp hwf
  induction todo generalizing done subS with
  | nil =>
    refine ⟨subS, rfl, hwfsub, ?_, ?_, ?_⟩
    · simpa using hcount
    · simpa using htot
    · simpa using habs
  | cons p todo ih =>
    rw [List.foldl_cons]
    have hassoc : (done ++ [p]) ++ todo = done ++ p :: todo := by simp
    by_cases hd : p.2.deleted = true
    · have hstep : compactStep S (some subS) p = some subS := by
        simp only [compactStep]
        rw [if_pos hd]
      rw [hstep]
      have hlz : liveCountB [p] = 0 := by simp [liveCountB, hd]
      have hsz : liveSumB [p] = 0 := by
        have h1 := liveSumB_cons p []
        simp only [hd, if_pos] at h1
        simpa [liveSumB] using h1
      have habs' : ∀ k0, absB subS k0 = (match indexLookup (done ++ [p]) k0 with
          | none => none
          | some e => if e.deleted then none else absB S k0) := by
        intro k0
        rw [indexLookup_append]
        cases hlk : indexLookup done k0 with
        | some e => rw [habs k0, hlk]
        | none =>
          rw [habs k0, hlk]
          by_cases hpk : p.1 = k0
          · simp [indexLookup, List.find?, hpk, hd]
          · simp [indexLookup, List.find?, show (p.1 == k0) = false from by
              simpa using hpk]
      obtain ⟨subS', h1, h2, h3, h4, h5⟩ := ih (done ++ [p]) subS
        (by rw [hsplit, hassoc]) hwfsub
        (by rw [hcount, liveCountB_append, hlz]; omega)
        (by rw [htot, liveSumB_append, hsz]; omega) habs'
      rw [hassoc] at h3 h4 h5
      exact ⟨subS', h1, h2, h3, h4, h5⟩
    · -- live entry: read it back through Get and Put it into the sub-store
      have hmem : p ∈ S.index := by rw [hsplit]; simp
      have hlkS : indexLookup S.index p.1 = some p.2 := mem_indexLookup _ _ hnd hmem
      have hok : entryOkB S p.1 p.2 = true := by
        rcases hent p hmem with h | h
        · exact absurd h hd
        · exact h
      obtain ⟨f, payload, kv, hf, hs, ho, hb, hpay, hdec, hk1, hpm, hks, hvs,
        hkl, hkle, hvle, hszp, hck⟩ := entryOkB_elim S p.1 p.2 hok
      have hpayS : entryPayload S p.2 = some payload := by
        unfold entryPayload
        simp only [hf]
        rw [if_pos ⟨hs, ho, hb⟩, ← hpay]
      have habsS : absB S p.1 = some kv.2 := by
        unfold absB
        simp only [hlkS]
        rw [if_neg (by simpa using hd)]
        simp only [hpayS, hdec]
        rfl
      have hget : (getB S p.1).1 = .ok kv.2 := by
        rw [getB_abs S hwf p.1, habsS]
      have hcapsub : maxSegNum subS.segs + 1 < 10 ^ 25 := by
        have h1 : maxSegNum subS.segs * maxKeysPerSegment ≤ liveCountB done := by
          rw [← hcount]; omega
        have h2 : liveCountB done ≤ S.index.length := by
          calc liveCountB done ≤ done.length := liveCountB_le_length done
            _ ≤ S.index.length := by rw [hsplit]; simp
        have e27 : (10 : Nat) ^ 27 = 1000000000000000000000000000 := by norm_num
        have e25 : (10 : Nat) ^ 25 = 10000000000000000000000000 := by norm_num
        rw [e25]
        rw [e27] at hbig
        simp only [maxKeysPerSegment] at h1
        omega
      obtain ⟨subS', t2, num2, f2, m2, hputsub, -, -, -, hwf'', htot'', habsk'',
        habsfr'', hcnteq'', -, -, -⟩ :=
        putB_spec subS p.1 kv.2 hwfsub hkl hkle hvle hks hvs hcapsub
      have hstep : compactStep S (some subS) p = some subS' := by
        simp only [compactStep]
        rw [if_neg hd]
        simp only [hget, hputsub]
      rw [hstep]
      have hlo : liveCountB [p] = 1 := by
        simp [liveCountB, List.filter, hd]
      have hnotdone : indexLookup done p.1 = none := by
        refine indexLookup_eq_none done p.1 ?_
        intro hmemd
        have hnd2 : ((done ++ p :: todo).map Prod.fst).Nodup := by
          rw [← hsplit]; exact hnd
        rw [List.map_append, List.nodup_append] at hnd2
        exact hnd2.2.2 hmemd (by simp)
      have hmlen : (jsonMarshal p.1 kv.2).length = p.2.size.toNat := by
        rw [← hk1, ← hpm, hszp]
        omega
      have hsump : liveSumB [p] = metadataSize + p.2.size.toNat := by
        have h1 := liveSumB_cons p []
        simp only [hd, if_neg] at h1
        simpa [liveSumB] using h1
      have habs' : ∀ k0, absB subS' k0 = (match indexLookup (done ++ [p]) k0 with
          | none => none
          | some e => if e.deleted then none else absB S k0) := by
        intro k0
        rw [indexLookup_append]
        by_cases hpk : k0 = p.1
        · subst hpk
          rw [hnotdone]
          simp only [indexLookup, List.find?, beq_self_eq_true]
          rw [if_neg (by simpa using hd)]
          rw [habsk'', habsS]
        · rw [habsfr'' k0 hpk, habs k0]
          cases hlk : indexLookup done k0 with
          | some e => rfl
          | none =>
            simp [indexLookup, List.find?, show (p.1 == k0) = false from by
              simpa using fun h => hpk h.symm]
      obtain ⟨subS'', h1, h2, h3, h4, h5⟩ := ih (done ++ [p]) subS'
        (by rw [hsplit, hassoc]) hwf''
        (by rw [hcnteq'', hcount, liveCountB_append, hlo])
        (by rw [htot'', htot, liveSumB_append, hsump, hmlen]; omega) habs'
      rw [hassoc] at h3 h4 h5
      exact ⟨subS'', h1, h2, h3, h4, h5⟩

/-- A completed compaction cycle preserves well-formedness and the logical
contents exactly, and never grows the byte footprint. -/
theorem compactB_spec (S : StoreB) (hwf : wfB S = true)
    (hbig : S.index.length < 10 ^ 27) :
    wfB (compactB S) = true ∧
    (∀ k, absB (compactB S) k = absB S k) ∧
    totalBytesB (compactB S) ≤ totalBytesB S := by
  obtain ⟨-, -, -, -, hlive, -⟩ := (wfB_spec S).mp hwf
  have hwfF : wfB freshB = true := by decide
  have habsF : ∀ k0, absB freshB k0 = (match indexLookup [] k0 with
      | none => none
      | some e => if e.deleted then none else absB S k0) := by
    intro k0
    rfl
  obtain ⟨subS', hfold, hwf', hcnt', htot', habs'⟩ :=
    compactFold_inv S hwf hbig S.index [] freshB (by simp) hwfF (by decide)
      (by decide) habsF
  have hcomp : compactB S = subS' := by
    unfold compactB
    rw [hfold]
  rw [List.nil_append] at htot' habs'
  refine ⟨by rw [hcomp]; exact hwf', ?_, ?_⟩
  · intro k
    rw [hcomp, habs' k]
    unfold absB
    cases hlk : indexLookup S.index k with
    | none => rfl
    | some e =>
      by_cases hdel : e.deleted = true
      · simp [hdel]
      · simp [hdel]
  · rw [hcomp, htot']
    exact hlive

/-- C5: starting from any well-formed rotating store, a successful Put
rotates exactly when the active segment's write counter has reached
`MaxKeysPerSegment` — allocating segment number `current maximum + 1` as the
new active segment and resetting the counter to the one record just written
— and otherwise only increments the counter; in either case the whole
record (header and payload) is appended to the single active segment, which
is the highest-numbered one. -/
theorem claim5_rotation (S : StoreB) (k v : List Nat)
    (hwf : wfB S = true) (h0 : 0 < k.length) (hk : k.length ≤ maxKeySize)
    (hv : v.length ≤ maxValueSize) (hsk : jsonSafe k = true)
    (hsv : jsonSafe v = true) (hcap : maxSegNum S.segs + 1 < 10 ^ 25) :
    ∃ S', putB S k v = (.ok (), S') ∧ wfB S' = true ∧
      (S.counter = maxKeysPerSegment →
        S'.segs.map Prod.fst = S.segs.map Prod.fst ++ [maxSegNum S.segs + 1] ∧
        S'.counter = 1) ∧
      (S.counter ≠ maxKeysPerSegment →
        S'.segs.map Prod.fst = S.segs.map Prod.fst ∧
        S'.counter = S.counter + 1) ∧
      (∃ t num f m, (rotateIfNeeded S).segs = t ++ [(num, f)] ∧
        S'.segs = t ++ [(num, f ++ serializeMeta m ++ jsonMarshal k v)] ∧
        num = maxSegNum S'.segs) := by
  obtain ⟨S', t, num, f, m, hput, hrsegs, hsegs', hcnt', hwf', -, -, -, -,
    hnummax, hrotyes, hrotno⟩ := putB_spec S k v hwf h0 hk hv hsk hsv hcap
  exact ⟨S', hput, hwf', hrotyes, hrotno, t, num, f, m, hrsegs, hsegs', hnummax⟩

/-- C8: a compaction cycle that runs to completion preserves the logical
contents — every key's Get result (and the abstract value map) is unchanged
— and the total bytes occupied by segment files never grow. -/
theorem claim8_compaction (S : StoreB) (hwf : wfB S = true)
    (hbig : S.index.length < 10 ^ 27) :
    (∀ k, (getB (compactB S) k).1 = (getB S k).1) ∧
    (∀ k, absB (compactB S) k = absB S k) ∧
    totalBytesB (compactB S) ≤ totalBytesB S := by
  obtain ⟨hwf', habs, htot⟩ := compactB_spec S hwf hbig
  refine ⟨?_, habs, htot⟩
  intro k
  rw [getB_abs _ hwf' k, getB_abs _ hwf k, habs k]
  cases absB S k with
  | none => rfl
  | some v => rfl

set_option maxRecDepth 20000 in
/-- Witness for C5 at a store standing at the rotation threshold. -/
theorem claim5_witness :
    wfB rotDemo = true ∧ maxSegNum rotDemo.segs + 1 < 10 ^ 25 ∧
    (∃ S', putB rotDemo (strBytes "k") (strBytes "v") = (.ok (), S') ∧
      wfB S' = true ∧
      (rotDemo.counter = maxKeysPerSegment →
        S'.segs.map Prod.fst =
          rotDemo.segs.map Prod.fst ++ [maxSegNum rotDemo.segs + 1] ∧
        S'.counter = 1) ∧
      (rotDemo.counter ≠ maxKeysPerSegment →
        S'.segs.map Prod.fst = rotDemo.segs.map Prod.fst ∧
        S'.counter = rotDemo.counter + 1) ∧
      (∃ t num f m, (rotateIfNeeded rotDemo).segs = t ++ [(num, f)] ∧
        S'.segs = t ++ [(num, f ++ serializeMeta m ++
          jsonMarshal (strBytes "k") (strBytes "v"))] ∧
        num = maxSegNum S'.segs)) :=
  ⟨by decide, by decide,
    claim5_rotation rotDemo (strBytes "k") (strBytes "v") (by decide) (by decide)
      (by decide) (by decide) (by decide) (by decide) (by decide)⟩

set_option maxRecDepth 100000 in
/-- Witness for C8 at a two-key store with one deletion. -/
theorem claim8_witness :
    wfB compDemo = true ∧ compDemo.index.length < 10 ^ 27 ∧
    ((∀ k, (getB (compactB compDemo) k).1 = (getB compDemo k).1) ∧
     (∀ k, absB (compactB compDemo) k = absB compDemo k) ∧
     totalBytesB (compactB compDemo) ≤ totalBytesB compDemo) :=
  ⟨by decide, by decide, claim8_compaction compDemo (by decide) (by decide)⟩
